import Mathlib

/-!
Verification of the react-worker library: a shallow embedding of the
worker-lifecycle supervisor hook, the chunk codec, the stream collector and
the worker-side message dispatcher, together with proofs of the specified
properties.

Sources embedded:
- chunk codec (`estimateSize`, `chunkBySize`, `chunkByCount`) from the
  worker-side streaming utilities;
- `StreamCollector` (`addChunk`, `getStreamData`, `clearStream`) from the
  data-streaming utilities;
- the `useWorker` supervisor hook (`start`, `terminate`, `restart`,
  `postMessage`, `resetIdleTimer`, the internal message handler, timers);
- the worker-side dispatcher `onMainMessage`.

JSON serialization (used by `estimateSize`) is not representable in a pure
embedding, so the codec is parametrized by an abstract item-size function
`sz : T → Nat` standing for `estimateSize`; the size of a chunk is the
accumulated size the code tracks, i.e. the sum of the item sizes.

The file is organized with all definitions first, then all theorems.
-/

namespace ReactWorker

/-! ## Definitions: chunk codec (worker-stream utilities) -/

/-- Loop body of `chunkBySize`: iterate over `data`, flushing the current
chunk whenever adding the next item would exceed `maxChunkSize` and the
current chunk is non-empty; after the loop, the last chunk is appended if
non-empty. `sz` stands for `estimateSize`; the source's local binding
`itemSize = estimateSize(item)` is inlined as `sz item`. -/
def chunkBySizeLoop {T : Type} (sz : T → Nat) (maxChunkSize : Nat) :
    List T → List (List T) → List T → Nat → List (List T)
  | [], chunks, currentChunk, _ =>
      if 0 < currentChunk.length then chunks ++ [currentChunk] else chunks
  | item :: rest, chunks, currentChunk, currentSize =>
      if maxChunkSize < currentSize + sz item ∧ 0 < currentChunk.length then
        chunkBySizeLoop sz maxChunkSize rest (chunks ++ [currentChunk]) [item] (sz item)
      else
        chunkBySizeLoop sz maxChunkSize rest chunks (currentChunk ++ [item])
          (currentSize + sz item)

/-- `chunkBySize(data, maxChunkSize?)`. The JavaScript guard `!maxChunkSize`
is truthy both when the argument is omitted and when it is `0`, so both are
routed to the single-item-chunks branch; that is modelled by
`maxChunkSize.getD 0 = 0`. -/
def chunkBySize {T : Type} (sz : T → Nat) (data : List T)
    (maxChunkSize : Option Nat) : List (List T) :=
  if maxChunkSize.getD 0 = 0 then
    data.map (fun item => [item])
  else
    let chunks := chunkBySizeLoop sz (maxChunkSize.getD 0) data [] [] 0
    if 0 < chunks.length then chunks else [[]]

/-- Loop of `chunkByCount`: `for (let i = 0; i < data.length; i += n)`
pushing `data.slice(i, i + n)`. With `n = 0` the JavaScript loop never
advances (divergence); that case is unreachable under the `1 ≤ n`
hypothesis of every theorem below and is mapped to `[]`. -/
def chunkByCountLoop {T : Type} : List T → Nat → List (List T)
  | _, 0 => []
  | [], _ + 1 => []
  | x :: xs, n + 1 =>
      (x :: xs).take (n + 1) :: chunkByCountLoop ((x :: xs).drop (n + 1)) (n + 1)
termination_by l _ => l.length
decreasing_by simp [List.length_drop]; omega

/-- `chunkByCount(data, itemsPerChunk)`. -/
def chunkByCount {T : Type} (data : List T) (itemsPerChunk : Nat) :
    List (List T) :=
  let chunks := chunkByCountLoop data itemsPerChunk
  if 0 < chunks.length then chunks else [[]]

/-! ## Definitions: JavaScript `Map` as an insertion-ordered association list

A JavaScript `Map` iterates in insertion order and holds each key at most
once.  `Map.set` replaces the value in place when the key is present and
appends otherwise; `Map.get` looks the key up; `Map.delete` removes the
key's entry; `Map.size` is the number of entries (the list length under the
distinct-keys invariant); `Map.values()` is the second projection in
insertion order. -/

/-- `Map.set`. -/
def mapSet {K V : Type} [DecidableEq K] : List (K × V) → K → V → List (K × V)
  | [], k, v => [(k, v)]
  | (k', v') :: rest, k, v =>
      if k = k' then (k, v) :: rest else (k', v') :: mapSet rest k v

/-- `Map.get`. -/
def mapGet {K V : Type} [DecidableEq K] : List (K × V) → K → Option V
  | [], _ => none
  | (k', v') :: rest, k => if k = k' then some v' else mapGet rest k

/-- `Map.delete`. -/
def mapDelete {K V : Type} [DecidableEq K] : List (K × V) → K → List (K × V)
  | [], _ => []
  | (k', v') :: rest, k => if k = k' then rest else (k', v') :: mapDelete rest k

/-! ## Definitions: stream collector (data-stream utilities) -/

/-- A `StreamChunk<T>`. -/
structure StreamChunk (T : Type) where
  id : String
  chunkIndex : Nat
  totalChunks : Nat
  data : T
  timestamp : Nat
deriving DecidableEq

/-- The ascending-`chunkIndex` order used by `getStreamData`'s comparator
`(a, b) => a.chunkIndex - b.chunkIndex`. -/
def chunkLE {T : Type} (a b : StreamChunk T) : Prop :=
  a.chunkIndex ≤ b.chunkIndex

instance {T : Type} : DecidableRel (@chunkLE T) := fun a b =>
  inferInstanceAs (Decidable (a.chunkIndex ≤ b.chunkIndex))

instance {T : Type} : IsTotal (StreamChunk T) chunkLE :=
  ⟨fun a b => Nat.le_total a.chunkIndex b.chunkIndex⟩

instance {T : Type} : IsTrans (StreamChunk T) chunkLE :=
  ⟨fun _ _ _ => Nat.le_trans⟩

/-- The stable ascending sort by `chunkIndex` that `getStreamData` performs
on `Array.from(stream.values())`. -/
def sortChunks {T : Type} (l : List (StreamChunk T)) : List (StreamChunk T) :=
  List.insertionSort chunkLE l

/-- The private state of a `StreamCollector<T>`: `streamId → (chunkIndex →
chunk)`, both levels JavaScript `Map`s. -/
structure CollectorState (T : Type) where
  streams : List (String × List (Nat × StreamChunk T))
deriving DecidableEq

/-- A collector with no streams (`new StreamCollector(...)`). -/
def emptyCollector (T : Type) : CollectorState T := ⟨[]⟩

/-- `StreamCollector.getStreamData`. -/
def getStreamData {T : Type} (s : CollectorState T) (streamId : String) :
    Option (List T) :=
  match mapGet s.streams streamId with
  | none => none
  | some stream =>
      match sortChunks (stream.map Prod.snd) with
      | [] => none
      | c0 :: rest =>
          if (c0 :: rest).length = c0.totalChunks then
            some ((c0 :: rest).map StreamChunk.data)
          else none

/-- Result of one `addChunk` call: the updated collector, the
completion-callback invocation when one fired, and the returned boolean. -/
structure AddChunkResult (T : Type) where
  state : CollectorState T
  completed : Option (String × List T)
  result : Bool

/-- The stream map after the `if (!this.streams.has(chunk.id))
this.streams.set(chunk.id, new Map())` prelude of `addChunk`. -/
def streamsWithEntry {T : Type} (s : CollectorState T) (sid : String) :
    List (String × List (Nat × StreamChunk T)) :=
  if (mapGet s.streams sid).isSome then s.streams
  else mapSet s.streams sid []

/-- `StreamCollector.addChunk`. -/
def addChunk {T : Type} (s : CollectorState T) (chunk : StreamChunk T) :
    AddChunkResult T :=
  let stream := (mapGet (streamsWithEntry s chunk.id) chunk.id).getD []
  let stream₁ := mapSet stream chunk.chunkIndex chunk
  let s₁ : CollectorState T := ⟨mapSet (streamsWithEntry s chunk.id) chunk.id stream₁⟩
  if stream₁.length = chunk.totalChunks then
    match getStreamData s₁ chunk.id with
    | some data => ⟨⟨mapDelete s₁.streams chunk.id⟩, some (chunk.id, data), true⟩
    | none => ⟨s₁, none, false⟩
  else ⟨s₁, none, false⟩

/-- `StreamCollector.clearStream`. -/
def clearStream {T : Type} (s : CollectorState T) (streamId : String) :
    CollectorState T :=
  ⟨mapDelete s.streams streamId⟩

/-- Feed a list of chunks in arrival order, collecting the
completion-callback invocations in order. -/
def runCollector {T : Type} (s : CollectorState T) :
    List (StreamChunk T) → CollectorState T × List (String × List T)
  | [] => (s, [])
  | c :: cs =>
      let r := addChunk s c
      let rest := runCollector r.state cs
      (rest.1, r.completed.toList ++ rest.2)

/-- The `i`-th chunk of an `N`-chunk stream `sid` carrying payload `d i` and
timestamp `ts i`. -/
def mkChunk {T : Type} (sid : String) (N : Nat) (d : Nat → T) (ts : Nat → Nat)
    (i : Nat) : StreamChunk T :=
  ⟨sid, i, N, d i, ts i⟩

/-- The inner-map entries after the chunks of indices `p` (distinct, in
arrival order) have been stored. -/
def entriesFor {T : Type} (sid : String) (N : Nat) (d : Nat → T)
    (ts : Nat → Nat) (p : List Nat) : List (Nat × StreamChunk T) :=
  p.map (fun i => (i, mkChunk sid N d ts i))

/-- The collector holding exactly one stream `sid` with the chunks of
indices `p` stored. -/
def stateFor {T : Type} (sid : String) (N : Nat) (d : Nat → T)
    (ts : Nat → Nat) (p : List Nat) : CollectorState T :=
  ⟨[(sid, entriesFor sid N d ts p)]⟩

/-- The entries currently stored for `sid` (empty when the stream is
absent). -/
def storedEntries {T : Type} (s : CollectorState T) (sid : String) :
    List (Nat × StreamChunk T) :=
  (mapGet s.streams sid).getD []

/-- A concrete collector holding the first chunk of a 2-chunk stream, for
witnesses. -/
def sampleCollector : CollectorState Nat :=
  ⟨[("s", [(0, ⟨"s", 0, 2, 5, 0⟩)])]⟩

/-- The second (completing) chunk of the `sampleCollector` stream. -/
def sampleChunk : StreamChunk Nat := ⟨"s", 1, 2, 7, 0⟩

/-! ## Definitions: supervisor hook (`useWorker`)

The hook's mutable refs, React state and timers are modelled as one state
record; `Date.now()` is the `now` field; `setTimeout` handles are armed
absolute deadlines (`idleDeadline`, `initDeadline`); the worker handle is
the `workerActive` flag; messages forwarded to the worker are appended to
`outbox`.  `readySeen` (set only when the handler dispatches `READY`,
cleared by `start`), `idleTerminations` (incremented only by the
idle-timeout callback) and `warnLogs` (warnings logged by `postMessage`)
are ghost observers of events the code performs. -/

/-- `WorkerStatus`. -/
inductive WorkerStatus where
  | idle
  | starting
  | running
  | error
  | warning
  | terminating
deriving DecidableEq

/-- `'healthy' | 'degraded'`. -/
inductive HealthStatus where
  | healthy
  | degraded
deriving DecidableEq

/-- `LogLevel`. -/
inductive LogLevel where
  | debug
  | info
  | warn
  | error
deriving DecidableEq

/-- `Inbound` messages (supervisor → worker); `custom` stands for the
extensible custom variants. -/
inductive Inbound (D : Type) where
  | PING
  | ECHO (payload : String)
  | ACTION (payload : D)
  | TERMINATE
  | HEALTH_CHECK
  | custom (payload : D)
deriving DecidableEq

/-- `Outbound` messages (worker → supervisor). -/
inductive Outbound (D : Type) where
  | READY
  | ERROR (reason : String)
  | WARNING (reason : String)
  | ECHOED (payload : String) (durationMs : Option Nat)
  | ACTED (result : D) (durationMs : Option Nat)
  | PONG
  | TERMINATED
  | HEALTH (status : HealthStatus) (memory : Option Nat)
  | PROGRESS (percent : Nat) (message : Option String)
  | LOG (level : LogLevel) (message : String) (data : Option D)
  | STREAM_CHUNK (streamId : String) (chunkIndex : Nat) (totalChunks : Nat)
      (data : D)
  | STREAM_COMPLETE (streamId : String)
  | STREAM_ERROR (streamId : String) (reason : String)
deriving DecidableEq

/-- `WorkerMetrics`; the `performance` sub-object is flattened and its
never-written `cpuTime` field is omitted. -/
structure WorkerMetrics where
  messagesSent : Nat
  messagesReceived : Nat
  uptime : Nat
  lastActivity : Nat
  averageResponseTime : ℚ
  throughputPerMin : Option Nat
  healthStatus : Option HealthStatus
  lastHealthCheck : Option Nat
deriving DecidableEq

/-- The `useWorker` props governing lifecycle behaviour (`keepAlive`,
`idleTimeout`, the init `timeout`; `timeout` absent means no init timer). -/
structure SupConfig where
  keepAlive : Bool
  idleTimeout : Nat
  timeout : Option Nat
deriving DecidableEq

/-- The supervisor hook's state. -/
structure SupState (D : Type) where
  status : WorkerStatus
  workerActive : Bool
  error : Option String
  metrics : WorkerMetrics
  responseTimes : List Int
  processingTimes : List Nat
  recentResponses : List (Nat × Option Nat)
  pendingMessages : List (Nat × Nat)
  messageIdCounter : Nat
  startTime : Nat
  now : Nat
  idleDeadline : Option Nat
  initDeadline : Option Nat
  outbox : List (Inbound D)
  warnLogs : Nat
  readySeen : Bool
  idleTerminations : Nat
  collector : CollectorState D
deriving DecidableEq

/-- `terminate()`: set status `terminating`, clear both timers, remove the
internal handler, destroy the worker handle, reset `startTimeRef` and set
status `idle`.  The two status writes happen in one synchronous call, so
`idle` is the value observable after `terminate()` returns.  Metrics are
left untouched. -/
def terminate {D : Type} (s : SupState D) : SupState D :=
  { s with
    status := WorkerStatus.idle
    workerActive := false
    idleDeadline := none
    initDeadline := none
    startTime := 0 }

/-- `resetIdleTimer()`: with `keepAlive = false` and a positive
`idleTimeout`, clear any armed idle timer and arm it `idleTimeout` ms from
now; otherwise do nothing. -/
def resetIdleTimer {D : Type} (cfg : SupConfig) (s : SupState D) :
    SupState D :=
  if ¬cfg.keepAlive ∧ 0 < cfg.idleTimeout then
    { s with idleDeadline := some (s.now + cfg.idleTimeout) }
  else s

/-- The freshly reset metrics written by `start()` (`performance: {}`). -/
def freshMetrics (now : Nat) : WorkerMetrics :=
  { messagesSent := 0
    messagesReceived := 0
    uptime := 0
    lastActivity := now
    averageResponseTime := 0
    throughputPerMin := none
    healthStatus := none
    lastHealthCheck := none }

/-- `start()`: tear down any existing worker, set status `starting`, clear
the error, record the start time, reset metrics, `responseTimes` and
`pendingMessages`, then construct the worker (`ok` says whether
`new Worker` succeeds), arm the init-timeout timer when a truthy `timeout`
is configured, and arm the idle timer.  On construction failure the
`catch` block records the error and sets status `error`; the throw happens
before the handler and timers are installed, so neither timer is armed and
the worker handle stays empty. -/
def start {D : Type} (cfg : SupConfig) (s₀ : SupState D) (ok : Bool) :
    SupState D :=
  let s₁ := if s₀.workerActive then terminate s₀ else s₀
  let s₂ := { s₁ with
    status := WorkerStatus.starting
    error := none
    startTime := s₁.now
    metrics := freshMetrics s₁.now
    responseTimes := []
    pendingMessages := []
    readySeen := false }
  if ok then
    let s₃ := { s₂ with workerActive := true }
    let s₄ :=
      if 0 < cfg.timeout.getD 0 then
        { s₃ with initDeadline := some (s₃.now + cfg.timeout.getD 0) }
      else s₃
    resetIdleTimer cfg s₄
  else
    { s₂ with
      status := WorkerStatus.error
      error := some "Failed to create worker" }

/-- `postMessage(message)`: warn and send nothing when no worker is
active; otherwise allocate the next message id, record its send time, bump
`messagesSent`, stamp `lastActivity`, forward the message verbatim and
reset the idle timer. -/
def postMessage {D : Type} (cfg : SupConfig) (s : SupState D)
    (message : Inbound D) : SupState D :=
  if ¬s.workerActive then { s with warnLogs := s.warnLogs + 1 }
  else
    let s₁ := { s with
      pendingMessages := mapSet s.pendingMessages s.messageIdCounter s.now
      messageIdCounter := s.messageIdCounter + 1
      metrics := { s.metrics with
        messagesSent := s.metrics.messagesSent + 1
        lastActivity := s.now }
      outbox := s.outbox ++ [message] }
    resetIdleTimer cfg s₁

/-- Whether an outbound message is a result type (`ACTED`, `ECHOED`,
`PONG`) for response-time tracking. -/
def isResultType {D : Type} : Outbound D → Bool
  | Outbound.ACTED _ _ => true
  | Outbound.ECHOED _ _ => true
  | Outbound.PONG => true
  | _ => false

/-- The optional `durationMs` field of an outbound message (`PONG` carries
none). -/
def durationOf {D : Type} : Outbound D → Option Nat
  | Outbound.ECHOED _ dms => dms
  | Outbound.ACTED _ dms => dms
  | _ => none

/-- The handler's `while` loop pruning `recentResponses` entries older
than the trailing window. -/
def pruneOld : List (Nat × Option Nat) → Nat → List (Nat × Option Nat)
  | [], _ => []
  | (t, dms) :: rest, windowStart =>
      if t < windowStart then pruneOld rest windowStart
      else (t, dms) :: rest

/-- The response-time bookkeeping the handler performs for result-type
messages: look up the most recently allocated message id
(`counter − 1`); when a send time is recorded there (`if (sentTime)`:
present and non-zero), append `now − sentTime` to the rolling window,
delete the pending entry, cap the window at 100 samples and recompute the
arithmetic-mean `averageResponseTime`; then append `(now, durationMs)` to
`recentResponses`, prune entries older than 60 s, publish the window
length as `throughputPerMin`, and record the processing duration (capped
at 100 samples) when the worker supplied one. -/
def trackResponse {D : Type} (s : SupState D) (durationMs : Option Nat) :
    SupState D :=
  let messageId := s.messageIdCounter - 1
  let s₁ :=
    match mapGet s.pendingMessages messageId with
    | some sentTime =>
        if sentTime ≠ 0 then
          let rts₀ := s.responseTimes ++ [(s.now : Int) - (sentTime : Int)]
          let pend := mapDelete s.pendingMessages messageId
          let rts := if 100 < rts₀.length then rts₀.tail else rts₀
          { s with
            responseTimes := rts
            pendingMessages := pend
            metrics := { s.metrics with
              averageResponseTime := (rts.sum : ℚ) / (rts.length : ℚ) } }
        else s
    | none => s
  let recents := pruneOld (s₁.recentResponses ++ [(s₁.now, durationMs)])
    (s₁.now - 60000)
  let s₂ := { s₁ with
    recentResponses := recents
    metrics := { s₁.metrics with throughputPerMin := some recents.length } }
  match durationMs with
  | some dms =>
      let pts := s₂.processingTimes ++ [dms]
      { s₂ with processingTimes := if 100 < pts.length then pts.tail else pts }
  | none => s₂

/-- The `switch (data.type)` dispatch of the internal message handler. -/
def dispatchMessage {D : Type} (s : SupState D) : Outbound D → SupState D
  | Outbound.READY =>
      { s with status := WorkerStatus.running, readySeen := true }
  | Outbound.ERROR reason =>
      let s₁ := { s with error := some reason }
      let s₂ := terminate s₁
      { s₂ with status := WorkerStatus.error }
  | Outbound.WARNING _ => { s with status := WorkerStatus.warning }
  | Outbound.PONG => s
  | Outbound.TERMINATED => { s with status := WorkerStatus.idle }
  | Outbound.HEALTH st _ =>
      let s₁ := { s with metrics := { s.metrics with
        healthStatus := some st
        lastHealthCheck := some s.now } }
      if st = HealthStatus.degraded then
        { s₁ with status := WorkerStatus.warning }
      else s₁
  | Outbound.PROGRESS _ _ => s
  | Outbound.LOG _ _ _ => s
  | Outbound.STREAM_CHUNK sid i tot dms =>
      { s with collector := (addChunk s.collector ⟨sid, i, tot, dms, s.now⟩).state }
  | Outbound.STREAM_COMPLETE _ => s
  | Outbound.STREAM_ERROR sid _ =>
      { s with collector := clearStream s.collector sid }
  | Outbound.ECHOED _ _ => s
  | Outbound.ACTED _ _ => s

/-- The internal message handler: no-op when detached (the listener is
removed with the worker); otherwise bump `messagesReceived`, stamp
`lastActivity`, run response-time tracking for result-type messages, clear
the init-timeout timer, reset the idle timer and dispatch on the tag.
(The fan-out to registered listeners carries no supervisor state and is
not modelled.) -/
def handleMessage {D : Type} (cfg : SupConfig) (s : SupState D)
    (m : Outbound D) : SupState D :=
  if ¬s.workerActive then s
  else
    let s₁ := { s with metrics := { s.metrics with
      messagesReceived := s.metrics.messagesReceived + 1
      lastActivity := s.now } }
    let s₂ := if isResultType m then trackResponse s₁ (durationOf m) else s₁
    let s₃ := { s₂ with initDeadline := none }
    let s₄ := resetIdleTimer cfg s₃
    dispatchMessage s₄ m

/-- `restart()`: `terminate()` immediately, then `start()` after a 100 ms
grace delay; the delayed `start` is modelled as the immediately following
step (traces that interleave other events before the delayed start are
covered by event sequences with explicit `terminate` and `start`
events). -/
def restart {D : Type} (cfg : SupConfig) (s : SupState D) (ok : Bool) :
    SupState D :=
  start cfg (terminate s) ok

/-- The idle-timeout callback (`if (worker.current) terminate()`); the
one-shot timer is consumed first.  `idleTerminations` counts the
terminations this callback performs. -/
def fireIdle {D : Type} (s : SupState D) : SupState D :=
  let s₁ := { s with idleDeadline := none }
  if s₁.workerActive then
    { terminate s₁ with idleTerminations := s₁.idleTerminations + 1 }
  else s₁

/-- The init-timeout callback: record the timeout error, `terminate()`,
set status `error`; the one-shot timer is consumed first. -/
def fireInit {D : Type} (s : SupState D) : SupState D :=
  let s₁ := { s with
    initDeadline := none
    error := some "Worker initialization timeout" }
  { terminate s₁ with status := WorkerStatus.error }

/-- Run the earliest timer whose deadline is at most `target`, if any,
advancing `now` to that deadline; a tie fires the idle timer first. -/
def fireDueOnce {D : Type} (s : SupState D) (target : Nat) : SupState D :=
  match s.idleDeadline, s.initDeadline with
  | some dl₁, some dl₂ =>
      if dl₁ ≤ dl₂ then
        if dl₁ ≤ target then fireIdle { s with now := dl₁ } else s
      else
        if dl₂ ≤ target then fireInit { s with now := dl₂ } else s
  | some dl₁, none =>
      if dl₁ ≤ target then fireIdle { s with now := dl₁ } else s
  | none, some dl₂ =>
      if dl₂ ≤ target then fireInit { s with now := dl₂ } else s
  | none, none => s

/-- Let `d` ms elapse with no calls and no inbound messages: due timers
fire in deadline order (at most two are ever armed, and every firing
consumes at least one, so two passes run them all), then the clock reaches
`now + d`. -/
def elapse {D : Type} (s : SupState D) (d : Nat) : SupState D :=
  let target := s.now + d
  let s₁ := fireDueOnce s target
  let s₂ := fireDueOnce s₁ target
  { s₂ with now := target }

/-- The hook's initial state: status `idle`, no worker, zeroed metrics,
clock at `t0`. -/
def initState (D : Type) (t0 : Nat) : SupState D :=
  { status := WorkerStatus.idle
    workerActive := false
    error := none
    metrics := freshMetrics 0
    responseTimes := []
    processingTimes := []
    recentResponses := []
    pendingMessages := []
    messageIdCounter := 0
    startTime := 0
    now := t0
    idleDeadline := none
    initDeadline := none
    outbox := []
    warnLogs := 0
    readySeen := false
    idleTerminations := 0
    collector := emptyCollector D }

/-- The externally observable events driving the supervisor: the public
calls, an inbound worker message, and the passage of time. -/
inductive SupEvent (D : Type) where
  | start (ok : Bool)
  | terminateCall
  | restartCall (ok : Bool)
  | post (message : Inbound D)
  | recv (message : Outbound D)
  | elapse (d : Nat)
deriving DecidableEq

/-- One event step. -/
def stepEvent {D : Type} (cfg : SupConfig) (s : SupState D) :
    SupEvent D → SupState D
  | SupEvent.start ok => start cfg s ok
  | SupEvent.terminateCall => terminate s
  | SupEvent.restartCall ok => restart cfg s ok
  | SupEvent.post m => postMessage cfg s m
  | SupEvent.recv m => handleMessage cfg s m
  | SupEvent.elapse d => elapse s d

/-- Run a sequence of events. -/
def runEvents {D : Type} (cfg : SupConfig) (s : SupState D) :
    List (SupEvent D) → SupState D
  | [] => s
  | e :: es => runEvents cfg (stepEvent cfg s e) es

/-- A concrete active supervisor state for witnesses: a running worker
started at time 40, clock at 50, idle timer armed for 150. -/
def sampleActive : SupState Nat :=
  { status := WorkerStatus.running
    workerActive := true
    error := none
    metrics := freshMetrics 40
    responseTimes := []
    processingTimes := []
    recentResponses := []
    pendingMessages := []
    messageIdCounter := 0
    startTime := 40
    now := 50
    idleDeadline := some 150
    initDeadline := none
    outbox := []
    warnLogs := 0
    readySeen := true
    idleTerminations := 0
    collector := emptyCollector Nat }

/-! ## Definitions: worker-side dispatcher (`onMainMessage`) -/

/-- Which handlers the caller supplied to `onMainMessage` (optional
callbacks modelled by presence flags). -/
structure Handlers where
  hasPing : Bool
  hasEcho : Bool
  hasAction : Bool
  hasTerminate : Bool
  hasHealthCheck : Bool
  hasError : Bool
  hasCustom : Bool
deriving DecidableEq

/-- The observable effect of dispatching one message. -/
inductive DispatchOutcome (D : Type) where
  | routedPing
  | routedEcho (payload : String)
  | routedAction (payload : D)
  | routedTerminate
  | routedHealthCheck
  | skipped
  | routedCustom (message : Inbound D)
  | handledError (message : String)
  | swallowed (message : String)
deriving DecidableEq

/-- The `try`-block switch of `onMainMessage`: a recognized tag invokes
its optional handler (`handlers.onX?.(...)`, a no-op when absent, recorded
as `skipped`); an unrecognized tag is routed whole to `onCustom` when
supplied and otherwise throws (the source message interpolates the
stringified message; only its fixed prefix is modelled). -/
def dispatchSwitch {D : Type} (h : Handlers) :
    Inbound D → Except String (DispatchOutcome D)
  | Inbound.ECHO payload =>
      Except.ok (if h.hasEcho then DispatchOutcome.routedEcho payload
        else DispatchOutcome.skipped)
  | Inbound.ACTION payload =>
      Except.ok (if h.hasAction then DispatchOutcome.routedAction payload
        else DispatchOutcome.skipped)
  | Inbound.PING =>
      Except.ok (if h.hasPing then DispatchOutcome.routedPing
        else DispatchOutcome.skipped)
  | Inbound.TERMINATE =>
      Except.ok (if h.hasTerminate then DispatchOutcome.routedTerminate
        else DispatchOutcome.skipped)
  | Inbound.HEALTH_CHECK =>
      Except.ok (if h.hasHealthCheck then DispatchOutcome.routedHealthCheck
        else DispatchOutcome.skipped)
  | Inbound.custom payload =>
      if h.hasCustom then
        Except.ok (DispatchOutcome.routedCustom (Inbound.custom payload))
      else Except.error "Unknown message type in"

/-- The per-message handler `onMainMessage` installs: the switch wrapped
in `try/catch`; a caught error goes to `onError` when supplied and is
otherwise dropped.  The result is always `Except.ok`: nothing escapes into
the worker's message loop. -/
def onMainMessage {D : Type} (h : Handlers) (msg : Inbound D) :
    Except String (DispatchOutcome D) :=
  match dispatchSwitch h msg with
  | Except.ok o => Except.ok o
  | Except.error e =>
      Except.ok (if h.hasError then DispatchOutcome.handledError e
        else DispatchOutcome.swallowed e)

/-! ## Theorems: chunk codec -/

theorem chunkByCountLoop_nil {T : Type} (n : Nat) :
    chunkByCountLoop ([] : List T) n = [] := by
  cases n <;> simp [chunkByCountLoop]

theorem chunkByCountLoop_join {T : Type} (n : Nat) (l : List T) :
    (chunkByCountLoop l (n + 1)).flatten = l := by
  have H : ∀ (k : Nat) (l : List T), l.length ≤ k →
      (chunkByCountLoop l (n + 1)).flatten = l := by
    intro k
    induction k with
    | zero =>
      intro l hl
      have : l = [] := List.eq_nil_of_length_eq_zero (Nat.le_zero.mp hl)
      subst this
      simp [chunkByCountLoop]
    | succ k ih =>
      intro l hl
      cases l with
      | nil => simp [chunkByCountLoop]
      | cons x xs =>
        rw [chunkByCountLoop]
        have hrec : (List.drop n xs).length ≤ k := by
          simp only [List.length_drop]
          simp only [List.length_cons] at hl
          omega
        simp [ih _ hrec, List.take_append_drop]
  exact H l.length l le_rfl

theorem chunkByCountLoop_ne_nil {T : Type} (n : Nat) (x : T) (xs : List T) :
    chunkByCountLoop (x :: xs) (n + 1) ≠ [] := by
  rw [chunkByCountLoop]; simp

theorem chunkByCountLoop_dropLast_length {T : Type} (n : Nat) (l : List T) :
    ∀ c ∈ (chunkByCountLoop l (n + 1)).dropLast, c.length = n + 1 := by
  have H : ∀ (k : Nat) (l : List T), l.length ≤ k →
      ∀ c ∈ (chunkByCountLoop l (n + 1)).dropLast, c.length = n + 1 := by
    intro k
    induction k with
    | zero =>
      intro l hl
      have : l = [] := List.eq_nil_of_length_eq_zero (Nat.le_zero.mp hl)
      subst this
      simp [chunkByCountLoop]
    | succ k ih =>
      intro l hl
      cases l with
      | nil => simp [chunkByCountLoop]
      | cons x xs =>
        rw [chunkByCountLoop]
        intro c hc
        by_cases hdrop : (x :: xs).drop (n + 1) = []
        · rw [hdrop, chunkByCountLoop_nil] at hc
          simp at hc
        · cases hrest : chunkByCountLoop ((x :: xs).drop (n + 1)) (n + 1) with
          | nil =>
            cases hd : (x :: xs).drop (n + 1) with
            | nil => exact absurd hd hdrop
            | cons y ys =>
              rw [hd] at hrest
              exact absurd hrest (chunkByCountLoop_ne_nil n y ys)
          | cons c0 cs =>
            rw [hrest] at hc
            rw [List.dropLast_cons_of_ne_nil (by simp)] at hc
            cases hc with
            | head =>
              have hlen : n + 1 < (x :: xs).length := by
                by_contra hle
                push_neg at hle
                exact hdrop (List.drop_eq_nil_of_le hle)
              simp only [List.length_take]
              omega
            | tail _ hmem =>
              have hrec : ((x :: xs).drop (n + 1)).length ≤ k := by
                simp only [List.length_drop, List.length_cons]
                simp only [List.length_cons] at hl
                omega
              have := ih _ hrec c
              rw [hrest] at this
              exact this hmem
  exact H l.length l le_rfl

/-- C5: for every non-empty array `A` and every `n ≥ 1`, concatenating the
chunks of `chunkByCount A n` in order yields exactly `A`, and every chunk
except possibly the last has length exactly `n`. -/
theorem chunkByCount_roundTrip {T : Type} (A : List T) (n : Nat) (hA : A ≠ [])
    (hn : 1 ≤ n) :
    (chunkByCount A n).flatten = A ∧
      ∀ c ∈ (chunkByCount A n).dropLast, c.length = n := by
  obtain ⟨m, rfl⟩ : ∃ m, n = m + 1 := ⟨n - 1, by omega⟩
  cases A with
  | nil => exact absurd rfl hA
  | cons x xs =>
    have hne := chunkByCountLoop_ne_nil m x xs
    have hpos : 0 < (chunkByCountLoop (x :: xs) (m + 1)).length :=
      List.length_pos.mpr hne
    constructor
    · rw [chunkByCount]
      simp only [hpos, if_pos]
      exact chunkByCountLoop_join m (x :: xs)
    · rw [chunkByCount]
      simp only [hpos, if_pos]
      exact chunkByCountLoop_dropLast_length m (x :: xs)

/-- Witness for C5 at a concrete input. -/
theorem chunkByCount_roundTrip_witness :
    ((chunkByCount [1, 2, 3, 4, 5] 2).flatten = [1, 2, 3, 4, 5] ∧
      ∀ c ∈ (chunkByCount [(1 : Nat), 2, 3, 4, 5] 2).dropLast, c.length = 2) :=
  chunkByCount_roundTrip [1, 2, 3, 4, 5] 2 (by decide) (by decide)

/-- The chunk-size invariant maintained by the `chunkBySize` loop:
every already-flushed chunk and the in-progress chunk is a singleton or has
accumulated estimated size at most the limit. -/
theorem chunkBySizeLoop_invariant {T : Type} (sz : T → Nat) (L : Nat)
    (l : List T) :
    ∀ (chunks : List (List T)) (cur : List T) (csz : Nat),
      (∀ c ∈ chunks, c.length = 1 ∨ (c.map sz).sum ≤ L) →
      csz = (cur.map sz).sum →
      (cur = [] ∨ cur.length = 1 ∨ (cur.map sz).sum ≤ L) →
      ∀ c ∈ chunkBySizeLoop sz L l chunks cur csz,
        c.length = 1 ∨ (c.map sz).sum ≤ L := by
  induction l with
  | nil =>
    intro chunks cur csz hchunks hcsz hcur c hc
    rw [chunkBySizeLoop] at hc
    split at hc
    next hpos =>
      rcases List.mem_append.mp hc with h | h
      · exact hchunks c h
      · rw [List.mem_singleton.mp h]
        rcases hcur with rfl | hcur
        · simp at hpos
        · exact hcur
    next => exact hchunks c hc
  | cons item rest ih =>
    intro chunks cur csz hchunks hcsz hcur c hc
    rw [chunkBySizeLoop] at hc
    split at hc
    next hflush =>
      refine ih _ _ _ ?_ (by simp) (Or.inr (Or.inl (by simp))) c hc
      intro c' hc'
      rcases List.mem_append.mp hc' with h | h
      · exact hchunks c' h
      · rw [List.mem_singleton.mp h]
        rcases hcur with rfl | hcur
        · exact absurd hflush.2 (by simp)
        · exact hcur
    next hnoflush =>
      rw [not_and_or] at hnoflush
      refine ih _ _ _ hchunks (by simp [hcsz]) ?_ c hc
      by_cases hemp : cur = []
      · subst hemp
        exact Or.inr (Or.inl (by simp))
      · right; right
        have hsz : ¬ L < csz + sz item := by
          rcases hnoflush with hn | hn
          · exact hn
          · exact absurd (List.length_pos.mpr hemp) hn
        simp only [List.map_append, List.sum_append, List.map_cons,
          List.map_nil, List.sum_cons, List.sum_nil]
        omega

/-- C6: every chunk produced by `chunkBySize A (some L)` either consists of
exactly one item (the oversized-singleton exception) or has estimated size
(the sum of the item estimates the code accumulates) at most `L`. -/
theorem chunkBySize_bound {T : Type} (sz : T → Nat) (A : List T) (L : Nat) :
    ∀ c ∈ chunkBySize sz A (some L), c.length = 1 ∨ (c.map sz).sum ≤ L := by
  intro c hc
  rw [chunkBySize] at hc
  by_cases hL : L = 0
  · subst hL
    simp only [Option.getD_some, if_pos rfl] at hc
    obtain ⟨x, _, rfl⟩ := List.mem_map.mp hc
    exact Or.inl (by simp)
  · simp only [Option.getD_some, if_neg hL] at hc
    split at hc
    · exact chunkBySizeLoop_invariant sz L A [] [] 0 (by simp) (by simp)
        (Or.inl rfl) c hc
    · rw [List.mem_singleton.mp hc]
      exact Or.inr (by simp)

/-- Witness for C6 at a concrete input: chunking `[3, 4, 9, 1]` with item
size the item itself and limit `8`. -/
theorem chunkBySize_bound_witness :
    [9] ∈ chunkBySize (fun n : Nat => n) [3, 4, 9, 1] (some 8) ∧
      ([(9 : Nat)].length = 1 ∨ ([9].map (fun n : Nat => n)).sum ≤ 8) :=
  ⟨by decide, chunkBySize_bound (fun n => n) [3, 4, 9, 1] 8 [9] (by decide)⟩

/-- C7 counterexample: with the size limit omitted, `chunkBySize` on empty
input returns zero chunks, not one empty chunk as the claim states. -/
theorem chunkBySize_empty_noLimit_counterexample :
    chunkBySize (fun n : Nat => n) ([] : List Nat) none = [] ∧
      chunkBySize (fun n : Nat => n) ([] : List Nat) none ≠ [[]] := by
  constructor <;> decide

/-- C7 (amended): with the size limit omitted, `chunkBySize` maps every item
to its own single-item chunk (hence empty input yields zero chunks); with a
positive limit given, empty input yields exactly one empty chunk; and
`chunkByCount` on empty input yields exactly one empty chunk. -/
theorem chunkBySize_conventions {T : Type} (sz : T → Nat) :
    (∀ A : List T, chunkBySize sz A none = A.map (fun item => [item])) ∧
      (∀ L : Nat, 1 ≤ L → chunkBySize sz ([] : List T) (some L) = [[]]) ∧
      (∀ n : Nat, chunkByCount ([] : List T) n = [[]]) := by
  refine ⟨fun A => rfl, fun L hL => ?_, fun n => ?_⟩
  · rw [chunkBySize]
    simp only [Option.getD_some]
    rw [if_neg (by omega)]
    rfl
  · rw [chunkByCount, chunkByCountLoop_nil]
    rfl

/-- Witness for C7 (amended) at concrete inputs. -/
theorem chunkBySize_conventions_witness :
    chunkBySize (fun n : Nat => n) [7, 8] none = [[7], [8]] ∧
      chunkBySize (fun n : Nat => n) ([] : List Nat) (some 5) = [[]] ∧
      chunkByCount ([] : List Nat) 3 = [[]] :=
  ⟨(chunkBySize_conventions (fun n : Nat => n)).1 [7, 8],
    (chunkBySize_conventions (fun n : Nat => n)).2.1 5 (by decide),
    (chunkBySize_conventions (fun n : Nat => n)).2.2 3⟩

/-! ## Theorems: the association-list `Map` -/

theorem mapGet_eq_none_iff {K V : Type} [DecidableEq K] (m : List (K × V))
    (k : K) : mapGet m k = none ↔ k ∉ m.map Prod.fst := by
  induction m with
  | nil => simp [mapGet]
  | cons e rest ih =>
    obtain ⟨k', v'⟩ := e
    by_cases h : k = k' <;> simp [mapGet, h, ih]

theorem mapSet_of_not_mem {K V : Type} [DecidableEq K] (m : List (K × V))
    (k : K) (v : V) (h : k ∉ m.map Prod.fst) :
    mapSet m k v = m ++ [(k, v)] := by
  induction m with
  | nil => rfl
  | cons e rest ih =>
    obtain ⟨k', v'⟩ := e
    simp only [List.map_cons, List.mem_cons] at h
    push_neg at h
    simp [mapSet, h.1, ih h.2]

theorem mapGet_mapSet_self {K V : Type} [DecidableEq K] (m : List (K × V))
    (k : K) (v : V) : mapGet (mapSet m k v) k = some v := by
  induction m with
  | nil => simp [mapSet, mapGet]
  | cons e rest ih =>
    obtain ⟨k', v'⟩ := e
    by_cases h : k = k' <;> simp [mapSet, mapGet, h, ih]

theorem mapSet_keys_of_mem {K V : Type} [DecidableEq K] (m : List (K × V))
    (k : K) (v : V) (h : k ∈ m.map Prod.fst) :
    (mapSet m k v).map Prod.fst = m.map Prod.fst := by
  induction m with
  | nil => simp at h
  | cons e rest ih =>
    obtain ⟨k', v'⟩ := e
    by_cases hk : k = k'
    · simp [mapSet, hk]
    · simp only [List.map_cons, List.mem_cons] at h
      rcases h with h | h
      · exact absurd h hk
      · simp [mapSet, hk, ih h]

theorem mapSet_keys {K V : Type} [DecidableEq K] (m : List (K × V)) (k : K)
    (v : V) :
    (mapSet m k v).map Prod.fst =
      if k ∈ m.map Prod.fst then m.map Prod.fst else m.map Prod.fst ++ [k] := by
  by_cases h : k ∈ m.map Prod.fst
  · simp [h, mapSet_keys_of_mem m k v h]
  · simp [h, mapSet_of_not_mem m k v h]

theorem mapSet_keys_nodup {K V : Type} [DecidableEq K] (m : List (K × V))
    (k : K) (v : V) (h : (m.map Prod.fst).Nodup) :
    ((mapSet m k v).map Prod.fst).Nodup := by
  rw [mapSet_keys]
  split
  · exact h
  next hmem => simp [List.nodup_append, h, hmem]

theorem mapDelete_keys_sublist {K V : Type} [DecidableEq K]
    (m : List (K × V)) (k : K) :
    ((mapDelete m k).map Prod.fst).Sublist (m.map Prod.fst) := by
  induction m with
  | nil => simp [mapDelete]
  | cons e rest ih =>
    obtain ⟨k', v'⟩ := e
    by_cases h : k = k'
    · simp only [mapDelete, if_pos h, List.map_cons]
      exact (List.sublist_cons_self _ _)
    · simp only [mapDelete, if_neg h, List.map_cons]
      exact ih.cons₂ k'

theorem mapDelete_keys_nodup {K V : Type} [DecidableEq K] (m : List (K × V))
    (k : K) (h : (m.map Prod.fst).Nodup) :
    ((mapDelete m k).map Prod.fst).Nodup :=
  (mapDelete_keys_sublist m k).nodup h

theorem mapGet_mapDelete_self {K V : Type} [DecidableEq K] (m : List (K × V))
    (k : K) (h : (m.map Prod.fst).Nodup) :
    mapGet (mapDelete m k) k = none := by
  induction m with
  | nil => rfl
  | cons e rest ih =>
    obtain ⟨k', v'⟩ := e
    simp only [List.map_cons, List.nodup_cons] at h
    by_cases hk : k = k'
    · subst hk
      simp only [mapDelete, if_pos rfl]
      exact (mapGet_eq_none_iff rest k).mpr h.1
    · simp [mapDelete, mapGet, hk, ih h.2]

theorem mapSet_values_subset {K V : Type} [DecidableEq K] (m : List (K × V))
    (k : K) (v : V) :
    ∀ w ∈ (mapSet m k v).map Prod.snd, w = v ∨ w ∈ m.map Prod.snd := by
  induction m with
  | nil => simp [mapSet]
  | cons e rest ih =>
    obtain ⟨k', v'⟩ := e
    by_cases h : k = k'
    · simp only [mapSet, if_pos h, List.map_cons, List.mem_cons]
      intro w hw
      rcases hw with rfl | hw
      · exact Or.inl rfl
      · exact Or.inr (Or.inr hw)
    · simp only [mapSet, if_neg h, List.map_cons, List.mem_cons]
      intro w hw
      rcases hw with rfl | hw
      · exact Or.inr (Or.inl rfl)
      · rcases ih w hw with hv | hv
        · exact Or.inl hv
        · exact Or.inr (Or.inr hv)

theorem mapSet_length_of_not_mem {K V : Type} [DecidableEq K]
    (m : List (K × V)) (k : K) (v : V) (h : k ∉ m.map Prod.fst) :
    (mapSet m k v).length = m.length + 1 := by
  rw [mapSet_of_not_mem m k v h]
  simp

theorem mapSet_length_of_mem {K V : Type} [DecidableEq K]
    (m : List (K × V)) (k : K) (v : V) (h : k ∈ m.map Prod.fst) :
    (mapSet m k v).length = m.length := by
  have := mapSet_keys_of_mem m k v h
  have h1 : ((mapSet m k v).map Prod.fst).length = (m.map Prod.fst).length := by
    rw [this]
  simpa using h1

/-! ## Theorems: stream collector -/

theorem sortChunks_perm {T : Type} (l : List (StreamChunk T)) :
    (sortChunks l).Perm l :=
  List.perm_insertionSort chunkLE l

theorem sortChunks_sorted {T : Type} (l : List (StreamChunk T)) :
    (sortChunks l).Sorted chunkLE :=
  List.sorted_insertionSort chunkLE l

/-- Sorting the chunks of a full permutation of `0..N-1` yields the chunks
in ascending index order. -/
theorem sortChunks_of_perm_range {T : Type} (sid : String) (N : Nat)
    (d : Nat → T) (ts : Nat → Nat) (p : List Nat)
    (hp : p.Perm (List.range N)) :
    sortChunks (p.map (mkChunk sid N d ts))
      = (List.range N).map (mkChunk sid N d ts) := by
  have hperm : (sortChunks (p.map (mkChunk sid N d ts))).Perm
      (p.map (mkChunk sid N d ts)) := sortChunks_perm _
  have hsort := sortChunks_sorted (p.map (mkChunk sid N d ts))
  set s := sortChunks (p.map (mkChunk sid N d ts)) with hs
  have hidx_sorted : (s.map StreamChunk.chunkIndex).Sorted (· ≤ ·) := by
    rw [List.Sorted, List.pairwise_map]
    exact hsort
  have hidx_perm : (s.map StreamChunk.chunkIndex).Perm (List.range N) := by
    refine ((hperm.map StreamChunk.chunkIndex).trans ?_)
    rw [List.map_map]
    have : (StreamChunk.chunkIndex ∘ mkChunk sid N d ts) = id := by
      funext i; rfl
    rw [this, List.map_id]
    exact hp
  have hidx_eq : s.map StreamChunk.chunkIndex = List.range N :=
    List.eq_of_perm_of_sorted hidx_perm hidx_sorted (List.sorted_le_range N)
  have hmem : ∀ c ∈ s, c = mkChunk sid N d ts c.chunkIndex := by
    intro c hc
    have : c ∈ p.map (mkChunk sid N d ts) := hperm.mem_iff.mp hc
    obtain ⟨i, _, rfl⟩ := List.mem_map.mp this
    rfl
  calc s = s.map (fun c => mkChunk sid N d ts c.chunkIndex) := by
        conv_lhs => rw [← List.map_id s]
        exact (List.map_congr_left fun c hc => (hmem c hc).symm).symm
    _ = (s.map StreamChunk.chunkIndex).map (mkChunk sid N d ts) := by
        rw [List.map_map]; rfl
    _ = (List.range N).map (mkChunk sid N d ts) := by rw [hidx_eq]

theorem entriesFor_keys {T : Type} (sid : String) (N : Nat) (d : Nat → T)
    (ts : Nat → Nat) (p : List Nat) :
    (entriesFor sid N d ts p).map Prod.fst = p := by
  simp only [entriesFor, List.map_map]
  have : (Prod.fst ∘ fun i => (i, mkChunk sid N d ts i)) = fun i : Nat => i := by
    funext i; rfl
  rw [this]
  exact List.map_id' p

theorem entriesFor_values {T : Type} (sid : String) (N : Nat) (d : Nat → T)
    (ts : Nat → Nat) (p : List Nat) :
    (entriesFor sid N d ts p).map Prod.snd = p.map (mkChunk sid N d ts) := by
  simp [entriesFor, List.map_map]

theorem entriesFor_append {T : Type} (sid : String) (N : Nat) (d : Nat → T)
    (ts : Nat → Nat) (p : List Nat) (i : Nat) :
    entriesFor sid N d ts (p ++ [i])
      = entriesFor sid N d ts p ++ [(i, mkChunk sid N d ts i)] := by
  simp [entriesFor]

theorem entriesFor_length {T : Type} (sid : String) (N : Nat) (d : Nat → T)
    (ts : Nat → Nat) (p : List Nat) :
    (entriesFor sid N d ts p).length = p.length := by
  simp [entriesFor]

theorem mapSet_singleton_self {K V : Type} [DecidableEq K] (k : K) (v₀ v : V) :
    mapSet [(k, v₀)] k v = [(k, v)] := by
  simp [mapSet]

theorem mapDelete_singleton_self {K V : Type} [DecidableEq K] (k : K) (v : V) :
    mapDelete [(k, v)] k = [] := by
  simp [mapDelete]

/-- `getStreamData` on a single stream holding the chunks of a full
permutation of `0..N-1` returns the payloads in ascending index order. -/
theorem getStreamData_stateFor_of_perm {T : Type} (sid : String) (N : Nat)
    (d : Nat → T) (ts : Nat → Nat) (q : List Nat)
    (hq : q.Perm (List.range N)) (hne : q ≠ []) :
    getStreamData (stateFor sid N d ts q) sid
      = some ((List.range N).map d) := by
  have hkey : mapGet (stateFor sid N d ts q).streams sid
      = some (entriesFor sid N d ts q) := by
    simp [stateFor, mapGet]
  have hN : 1 ≤ N := by
    have hlen := hq.length_eq
    rw [List.length_range] at hlen
    cases q with
    | nil => exact absurd rfl hne
    | cons a l => simp at hlen; omega
  obtain ⟨M, rfl⟩ : ∃ M, N = M + 1 := ⟨N - 1, by omega⟩
  have hsorted := sortChunks_of_perm_range sid (M + 1) d ts q hq
  rw [getStreamData, hkey]
  simp only [entriesFor_values, hsorted, List.range_succ_eq_map, List.map_cons]
  have htot : (mkChunk sid (M + 1) d ts 0).totalChunks = M + 1 := rfl
  rw [if_pos]
  · simp [List.map_map, mkChunk, List.range_succ_eq_map, Function.comp]
  · simp [htot]

/-- A non-completing `addChunk` appends the fresh index `i` to the stored
entries. -/
theorem addChunk_stateFor_step {T : Type} (sid : String) (N : Nat)
    (d : Nat → T) (ts : Nat → Nat) (p : List Nat) (i : Nat) (hi : i ∉ p)
    (hlt : p.length + 1 ≠ N) :
    addChunk (stateFor sid N d ts p) (mkChunk sid N d ts i)
      = ⟨stateFor sid N d ts (p ++ [i]), none, false⟩ := by
  have hkey : mapGet (stateFor sid N d ts p).streams (mkChunk sid N d ts i).id
      = some (entriesFor sid N d ts p) := by
    simp [stateFor, mapGet, mkChunk]
  have hset : mapSet (entriesFor sid N d ts p) i (mkChunk sid N d ts i)
      = entriesFor sid N d ts (p ++ [i]) := by
    rw [mapSet_of_not_mem _ _ _ (by rw [entriesFor_keys]; exact hi),
      entriesFor_append]
  have hlen : (entriesFor sid N d ts (p ++ [i])).length = p.length + 1 := by
    rw [entriesFor_length]; simp
  have hswe : streamsWithEntry (stateFor sid N d ts p) (mkChunk sid N d ts i).id
      = (stateFor sid N d ts p).streams := by
    simp [streamsWithEntry, hkey]
  rw [addChunk]
  simp only [hswe, hkey, Option.getD_some]
  have hidx : (mkChunk sid N d ts i).chunkIndex = i := rfl
  rw [hidx, hset, if_neg (by rw [hlen]; exact hlt)]
  simp [stateFor, mkChunk, mapSet_singleton_self]

/-- The completing `addChunk`: the arrival of the last missing index fires
the completion callback with the payloads in ascending index order, deletes
the stream and returns `true`. -/
theorem addChunk_stateFor_final {T : Type} (sid : String) (N : Nat)
    (d : Nat → T) (ts : Nat → Nat) (p : List Nat) (i : Nat) (hi : i ∉ p)
    (hperm : (p ++ [i]).Perm (List.range N)) :
    addChunk (stateFor sid N d ts p) (mkChunk sid N d ts i)
      = ⟨⟨[]⟩, some (sid, (List.range N).map d), true⟩ := by
  have hkey : mapGet (stateFor sid N d ts p).streams (mkChunk sid N d ts i).id
      = some (entriesFor sid N d ts p) := by
    simp [stateFor, mapGet, mkChunk]
  have hset : mapSet (entriesFor sid N d ts p) i (mkChunk sid N d ts i)
      = entriesFor sid N d ts (p ++ [i]) := by
    rw [mapSet_of_not_mem _ _ _ (by rw [entriesFor_keys]; exact hi),
      entriesFor_append]
  have hN : (p ++ [i]).length = N := by
    have := hperm.length_eq
    rwa [List.length_range] at this
  have hlen : (entriesFor sid N d ts (p ++ [i])).length = N := by
    rw [entriesFor_length, hN]
  have hswe : streamsWithEntry (stateFor sid N d ts p) (mkChunk sid N d ts i).id
      = (stateFor sid N d ts p).streams := by
    simp [streamsWithEntry, hkey]
  rw [addChunk]
  simp only [hswe, hkey, Option.getD_some]
  have hidx : (mkChunk sid N d ts i).chunkIndex = i := rfl
  have htot : (mkChunk sid N d ts i).totalChunks = N := rfl
  rw [hidx, hset, htot, if_pos hlen]
  have hstate : mapSet (stateFor sid N d ts p).streams (mkChunk sid N d ts i).id
      (entriesFor sid N d ts (p ++ [i]))
      = (stateFor sid N d ts (p ++ [i])).streams := by
    simp [stateFor, mkChunk, mapSet_singleton_self]
  rw [hstate]
  have hdata := getStreamData_stateFor_of_perm sid N d ts (p ++ [i]) hperm
    (by simp)
  have hid : (mkChunk sid N d ts i).id = sid := rfl
  rw [hid, hdata]
  simp [stateFor, mapDelete_singleton_self]

theorem runCollector_cons {T : Type} (s : CollectorState T)
    (c : StreamChunk T) (cs : List (StreamChunk T)) :
    runCollector s (c :: cs)
      = ((runCollector (addChunk s c).state cs).1,
          (addChunk s c).completed.toList
            ++ (runCollector (addChunk s c).state cs).2) := by
  rw [runCollector]

/-- Feeding fewer distinct indices than `N` to a single stream never fires
the completion callback and simply accumulates the entries. -/
theorem runCollector_stateFor_underfull {T : Type} (sid : String) (N : Nat)
    (d : Nat → T) (ts : Nat → Nat) (l : List Nat) :
    ∀ p : List Nat, (p ++ l).Nodup → p.length + l.length < N →
      runCollector (stateFor sid N d ts p) (l.map (mkChunk sid N d ts))
        = (stateFor sid N d ts (p ++ l), []) := by
  induction l with
  | nil =>
    intro p _ _
    simp [runCollector]
  | cons i l' ih =>
    intro p hnd hlen
    have hi : i ∉ p := by
      rcases List.nodup_append.mp hnd with ⟨_, _, hdisj⟩
      intro hmem
      exact hdisj hmem (List.mem_cons_self i l')
    have hne : p.length + 1 ≠ N := by
      simp only [List.length_cons] at hlen
      omega
    have hnd' : ((p ++ [i]) ++ l').Nodup := by
      rw [List.append_assoc]
      exact hnd
    have hlen' : (p ++ [i]).length + l'.length < N := by
      simp only [List.length_append, List.length_singleton]
      simp only [List.length_cons] at hlen
      omega
    have step := addChunk_stateFor_step sid N d ts p i hi hne
    rw [List.map_cons, runCollector_cons, step]
    dsimp only
    rw [ih (p ++ [i]) hnd' hlen']
    simp [List.append_assoc]

/-- Feeding the indices of a full permutation of `0..N-1` to a single
stream fires the completion callback exactly once, with the payloads in
ascending index order, and leaves the collector empty. -/
theorem runCollector_stateFor_complete {T : Type} (sid : String) (N : Nat)
    (d : Nat → T) (ts : Nat → Nat) (l : List Nat) :
    ∀ p : List Nat, l ≠ [] → (p ++ l).Perm (List.range N) →
      runCollector (stateFor sid N d ts p) (l.map (mkChunk sid N d ts))
        = (⟨[]⟩, [(sid, (List.range N).map d)]) := by
  induction l with
  | nil =>
    intro p hne _
    exact absurd rfl hne
  | cons i l' ih =>
    intro p _ hperm
    have hnd : (p ++ i :: l').Nodup := hperm.nodup_iff.mpr (List.nodup_range N)
    have hi : i ∉ p := by
      rcases List.nodup_append.mp hnd with ⟨_, _, hdisj⟩
      intro hmem
      exact hdisj hmem (List.mem_cons_self i l')
    cases l' with
    | nil =>
      have step := addChunk_stateFor_final sid N d ts p i hi hperm
      rw [List.map_cons, List.map_nil, runCollector_cons, step]
      dsimp only
      simp [runCollector]
    | cons j l'' =>
      have hlenN : (p ++ i :: j :: l'').length = N := by
        have := hperm.length_eq
        rwa [List.length_range] at this
      have hne : p.length + 1 ≠ N := by
        simp only [List.length_append, List.length_cons] at hlenN
        omega
      have step := addChunk_stateFor_step sid N d ts p i hi hne
      have hperm' : ((p ++ [i]) ++ j :: l'').Perm (List.range N) := by
        rw [List.append_assoc]
        exact hperm
      rw [List.map_cons, runCollector_cons, step]
      dsimp only
      rw [ih (p ++ [i]) (by simp) hperm']
      simp

/-- One `addChunk` step from the empty collector equals the step from the
collector whose stream map holds an empty entry for the chunk's id: the
code's `if (!this.streams.has(chunk.id)) this.streams.set(chunk.id, new
Map())` makes the two coincide. -/
theorem addChunk_emptyCollector {T : Type} (c : StreamChunk T) :
    addChunk (emptyCollector T) c = addChunk ⟨[(c.id, [])]⟩ c := by
  rw [addChunk, addChunk]
  simp [emptyCollector, streamsWithEntry, mapGet, mapSet]

theorem stateFor_nil {T : Type} (sid : String) (N : Nat) (d : Nat → T)
    (ts : Nat → Nat) : stateFor sid N d ts [] = ⟨[(sid, [])]⟩ := rfl

/-- C3: for every `N ≥ 1`, feeding a collector the `N` chunks of one stream
(indices `0..N-1`, each carrying `totalChunks = N`) in any permutation
invokes the completion callback exactly once, with the payloads assembled
in ascending `chunkIndex` order; feeding any `N - 1` of those chunks never
invokes the completion callback. -/
theorem collector_completeness {T : Type} (N : Nat) (hN : 1 ≤ N)
    (sid : String) (d : Nat → T) (ts : Nat → Nat) :
    (∀ l : List Nat, l.Perm (List.range N) →
      runCollector (emptyCollector T) (l.map (mkChunk sid N d ts))
        = (⟨[]⟩, [(sid, (List.range N).map d)])) ∧
    (∀ l : List Nat, l.Nodup → (∀ i ∈ l, i < N) → l.length = N - 1 →
      (runCollector (emptyCollector T) (l.map (mkChunk sid N d ts))).2
        = []) := by
  constructor
  · intro l hl
    cases l with
    | nil =>
      exfalso
      have := hl.length_eq
      rw [List.length_range] at this
      simp at this
      omega
    | cons i l' =>
      have hbridge : addChunk (emptyCollector T) (mkChunk sid N d ts i)
          = addChunk (stateFor sid N d ts []) (mkChunk sid N d ts i) := by
        rw [stateFor_nil]
        exact addChunk_emptyCollector (mkChunk sid N d ts i)
      rw [List.map_cons, runCollector_cons, hbridge, ← runCollector_cons,
        ← List.map_cons]
      exact runCollector_stateFor_complete sid N d ts (i :: l') []
        (by simp) (by simpa using hl)
  · intro l hnd _ hlen
    cases l with
    | nil => simp [runCollector]
    | cons i l' =>
      have hbridge : addChunk (emptyCollector T) (mkChunk sid N d ts i)
          = addChunk (stateFor sid N d ts []) (mkChunk sid N d ts i) := by
        rw [stateFor_nil]
        exact addChunk_emptyCollector (mkChunk sid N d ts i)
      have hlt : ([] : List Nat).length + (i :: l').length < N := by
        simp only [List.length_nil, List.length_cons]
        simp only [List.length_cons] at hlen
        omega
      rw [List.map_cons, runCollector_cons, hbridge, ← runCollector_cons,
        ← List.map_cons]
      rw [runCollector_stateFor_underfull sid N d ts (i :: l') []
        (by simpa using hnd) hlt]

/-- Witness for C3 at a concrete input: a 3-chunk stream fed in the order
`2, 0, 1`, and its incomplete prefix `2, 0`. -/
theorem collector_completeness_witness :
    runCollector (emptyCollector Nat)
        ([2, 0, 1].map (mkChunk "s" 3 (fun i => i * 10) (fun _ => 0)))
      = (⟨[]⟩, [("s", (List.range 3).map (fun i => i * 10))]) ∧
    (runCollector (emptyCollector Nat)
        ([2, 0].map (mkChunk "s" 3 (fun i => i * 10) (fun _ => 0)))).2 = [] :=
  ⟨(collector_completeness 3 (by decide) "s" (fun i => i * 10) (fun _ => 0)).1
      [2, 0, 1] (by decide),
    (collector_completeness 3 (by decide) "s" (fun i => i * 10)
        (fun _ => 0)).2 [2, 0] (by decide) (by decide) (by decide)⟩

theorem mapSet_ne_nil {K V : Type} [DecidableEq K] (m : List (K × V)) (k : K)
    (v : V) : mapSet m k v ≠ [] := by
  cases m with
  | nil => simp [mapSet]
  | cons e rest =>
    obtain ⟨k', v'⟩ := e
    rw [mapSet]
    split <;> simp

theorem addChunk_stream_eq {T : Type} (s : CollectorState T) (sid : String) :
    (mapGet (streamsWithEntry s sid) sid).getD [] = storedEntries s sid := by
  rw [streamsWithEntry]
  cases h : mapGet s.streams sid with
  | none => simp [h, storedEntries, mapGet_mapSet_self]
  | some e => simp [h, storedEntries]

theorem streamsWithEntry_keys_nodup {T : Type} (s : CollectorState T)
    (sid : String) (h : (s.streams.map Prod.fst).Nodup) :
    ((streamsWithEntry s sid).map Prod.fst).Nodup := by
  rw [streamsWithEntry]
  split
  · exact h
  · exact mapSet_keys_nodup s.streams sid [] h

/-- A stream whose stored chunks all carry `totalChunks` equal to the
number of stored entries assembles successfully. -/
theorem getStreamData_isSome_of_consistent {T : Type}
    (m : List (String × List (Nat × StreamChunk T))) (sid : String)
    (E : List (Nat × StreamChunk T)) (hget : mapGet m sid = some E)
    (hne : E ≠ [])
    (hcons : ∀ ch ∈ E.map Prod.snd, ch.totalChunks = E.length) :
    getStreamData (⟨m⟩ : CollectorState T) sid ≠ none := by
  have hsp := sortChunks_perm (E.map Prod.snd)
  cases hsort : sortChunks (E.map Prod.snd) with
  | nil =>
    exfalso
    rw [hsort] at hsp
    have := hsp.length_eq
    simp at this
    exact hne (List.eq_nil_of_length_eq_zero (by simp [← this]))
  | cons c0 rest =>
    rw [hsort] at hsp
    have hc0 : c0 ∈ E.map Prod.snd := hsp.mem_iff.mp (List.mem_cons_self c0 rest)
    have htot : c0.totalChunks = E.length := hcons c0 hc0
    have hlen : (c0 :: rest).length = E.length := by
      have := hsp.length_eq
      simpa using this
    rw [getStreamData]
    simp only [hget, hsort]
    rw [if_pos (by rw [hlen, htot])]
    simp

/-- Characterization of one `addChunk` call: its updated stream map and the
exact condition under which it reports completion. -/
theorem addChunk_spec {T : Type} (s : CollectorState T) (c : StreamChunk T) :
    ((addChunk s c).state.streams
      = (if (addChunk s c).result then
          mapDelete (mapSet (streamsWithEntry s c.id) c.id
            (mapSet (storedEntries s c.id) c.chunkIndex c)) c.id
        else
          mapSet (streamsWithEntry s c.id) c.id
            (mapSet (storedEntries s c.id) c.chunkIndex c))) ∧
    ((addChunk s c).result = true ↔
      ((mapSet (storedEntries s c.id) c.chunkIndex c).length = c.totalChunks ∧
        getStreamData
          ⟨mapSet (streamsWithEntry s c.id) c.id
            (mapSet (storedEntries s c.id) c.chunkIndex c)⟩ c.id ≠ none)) := by
  rw [addChunk]
  simp only [addChunk_stream_eq]
  split
  next hcond =>
    cases hdata : getStreamData
        ⟨mapSet (streamsWithEntry s c.id) c.id
          (mapSet (storedEntries s c.id) c.chunkIndex c)⟩ c.id with
    | none => simp [hdata, hcond]
    | some data => simp [hdata, hcond]
  next hcond => simp [hcond]

/-- C4: `addChunk` returns `true` exactly on the call that completes a
stream (for streams whose stored chunks carry a consistent `totalChunks`);
the completing call deletes the stream's entry, so a later chunk with the
same `streamId` starts a fresh entry rather than joining the completed
stream; and a duplicate arrival of the same `(streamId, chunkIndex)`
overwrites the stored chunk (last write wins) without counting as a new
index. -/
theorem addChunk_completion_contract {T : Type} (s : CollectorState T)
    (c : StreamChunk T) (hkeys : (s.streams.map Prod.fst).Nodup) :
    ((∀ ch ∈ (storedEntries s c.id).map Prod.snd,
        ch.totalChunks = c.totalChunks) →
      ((addChunk s c).result = true ↔
        (mapSet (storedEntries s c.id) c.chunkIndex c).length
          = c.totalChunks)) ∧
    ((addChunk s c).result = true →
      mapGet (addChunk s c).state.streams c.id = none) ∧
    ((addChunk s c).result = true → ∀ c' : StreamChunk T, c'.id = c.id →
      storedEntries (addChunk (addChunk s c).state c').state c'.id
        = if c'.totalChunks = 1 then [] else [(c'.chunkIndex, c')]) ∧
    (c.chunkIndex ∈ (storedEntries s c.id).map Prod.fst →
      ((mapSet (storedEntries s c.id) c.chunkIndex c).map Prod.fst
          = (storedEntries s c.id).map Prod.fst ∧
        mapGet (mapSet (storedEntries s c.id) c.chunkIndex c) c.chunkIndex
          = some c)) ∧
    ((addChunk s c).result = false →
      storedEntries (addChunk s c).state c.id
        = mapSet (storedEntries s c.id) c.chunkIndex c) := by
  obtain ⟨hstreams, hiff⟩ := addChunk_spec s c
  have hnodup₁ : ((mapSet (streamsWithEntry s c.id) c.id
      (mapSet (storedEntries s c.id) c.chunkIndex c)).map Prod.fst).Nodup :=
    mapSet_keys_nodup _ _ _ (streamsWithEntry_keys_nodup s c.id hkeys)
  have h2 : (addChunk s c).result = true →
      mapGet (addChunk s c).state.streams c.id = none := by
    intro h
    rw [hstreams, h]
    simp only [if_true]
    exact mapGet_mapDelete_self _ _ hnodup₁
  refine ⟨?_, h2, ?_, ?_, ?_⟩
  · intro hcons
    constructor
    · intro h
      exact (hiff.mp h).1
    · intro hlen
      apply hiff.mpr
      refine ⟨hlen, ?_⟩
      apply getStreamData_isSome_of_consistent _ _
        (mapSet (storedEntries s c.id) c.chunkIndex c)
        (mapGet_mapSet_self _ _ _) (mapSet_ne_nil _ _ _)
      intro ch hch
      rcases mapSet_values_subset (storedEntries s c.id) c.chunkIndex c ch hch
        with rfl | hmem
      · exact hlen.symm
      · exact (hcons ch hmem).trans hlen.symm
  · intro h c' hc'id
    have hdel := h2 h
    have hstored' : storedEntries (addChunk s c).state c'.id = [] := by
      rw [storedEntries, hc'id, hdel]
      rfl
    have hkeys' : ((addChunk s c).state.streams.map Prod.fst).Nodup := by
      rw [hstreams, h]
      simp only [if_true]
      exact mapDelete_keys_nodup _ _ hnodup₁
    obtain ⟨hstreams', hiff'⟩ := addChunk_spec (addChunk s c).state c'
    have hE : mapSet (storedEntries (addChunk s c).state c'.id)
        c'.chunkIndex c' = [(c'.chunkIndex, c')] := by
      rw [hstored']
      rfl
    by_cases htot : c'.totalChunks = 1
    · have hres : (addChunk (addChunk s c).state c').result = true := by
        apply hiff'.mpr
        refine ⟨by rw [hE]; simp [htot], ?_⟩
        apply getStreamData_isSome_of_consistent _ _
          (mapSet (storedEntries (addChunk s c).state c'.id) c'.chunkIndex c')
          (mapGet_mapSet_self _ _ _) (mapSet_ne_nil _ _ _)
        intro ch hch
        rw [hE] at hch ⊢
        simp only [List.map_cons, List.map_nil, List.mem_singleton] at hch
        rw [hch]
        simpa using htot
      rw [if_pos htot, storedEntries, hstreams', hres]
      simp only [if_true]
      rw [mapGet_mapDelete_self _ _
        (mapSet_keys_nodup _ _ _ (streamsWithEntry_keys_nodup _ _ hkeys'))]
      rfl
    · have hres : (addChunk (addChunk s c).state c').result = false := by
        cases hr : (addChunk (addChunk s c).state c').result
        · rfl
        · exfalso
          have := (hiff'.mp hr).1
          rw [hE] at this
          simp at this
          exact htot this.symm
      rw [if_neg htot, storedEntries, hstreams', hres]
      simp only [Bool.false_eq_true, if_false]
      rw [mapGet_mapSet_self, hE]
      rfl
  · intro hmem
    exact ⟨mapSet_keys_of_mem _ _ _ hmem, mapGet_mapSet_self _ _ _⟩
  · intro h
    rw [storedEntries, hstreams, h]
    simp only [Bool.false_eq_true, if_false]
    rw [mapGet_mapSet_self]
    rfl

/-- Witness for C4 at a concrete input: the completing second chunk of a
2-chunk stream. -/
theorem addChunk_completion_contract_witness :
    (addChunk sampleCollector sampleChunk).result = true ↔
      (mapSet (storedEntries sampleCollector sampleChunk.id)
        sampleChunk.chunkIndex sampleChunk).length
        = sampleChunk.totalChunks :=
  (addChunk_completion_contract sampleCollector sampleChunk (by decide)).1
    (by decide)

/-- C10: `getStreamData` returns a non-`null` array only when the stream
exists and the number of stored entries equals the `totalChunks` carried by
the lowest-indexed stored chunk; the returned array then contains every
stored payload in ascending index order, so no partially assembled data is
ever observable. -/
theorem getStreamData_complete_only {T : Type} (s : CollectorState T)
    (sid : String) (l : List T) (h : getStreamData s sid = some l) :
    ∃ entries c0 rest,
      mapGet s.streams sid = some entries ∧
      sortChunks (entries.map Prod.snd) = c0 :: rest ∧
      entries.length = c0.totalChunks ∧
      l.length = c0.totalChunks ∧
      (∀ ch ∈ entries.map Prod.snd, c0.chunkIndex ≤ ch.chunkIndex) ∧
      l = (c0 :: rest).map StreamChunk.data := by
  rw [getStreamData] at h
  split at h
  next => simp at h
  next entries hget =>
    split at h
    next => simp at h
    next c0 rest hsort =>
      split at h
      next hcond =>
        have hperm := sortChunks_perm (entries.map Prod.snd)
        rw [hsort] at hperm
        have hlen : (c0 :: rest).length = entries.length := by
          have := hperm.length_eq
          simpa using this
        have hsorted := sortChunks_sorted (entries.map Prod.snd)
        rw [hsort] at hsorted
        have hmin : ∀ ch ∈ entries.map Prod.snd,
            c0.chunkIndex ≤ ch.chunkIndex := by
          intro ch hch
          have hmem : ch ∈ c0 :: rest := hperm.mem_iff.mpr hch
          rw [List.mem_cons] at hmem
          rcases hmem with rfl | hm
          · exact le_rfl
          · exact (List.sorted_cons.mp hsorted).1 ch hm
        have hl : l = (c0 :: rest).map StreamChunk.data :=
          (Option.some_injective _ h).symm
        refine ⟨entries, c0, rest, hget, hsort, ?_, ?_, hmin, hl⟩
        · simp only [List.length_cons] at hlen hcond
          omega
        · rw [hl]
          simpa using hcond
      next => simp at h

/-- Witness for C10 at a concrete input: a complete 2-chunk stream. -/
theorem getStreamData_complete_only_witness :
    ∃ entries c0 rest,
      mapGet (⟨[("s", [(1, ⟨"s", 1, 2, 7, 0⟩), (0, ⟨"s", 0, 2, 5, 0⟩)])]⟩ :
          CollectorState Nat).streams "s" = some entries ∧
      sortChunks (entries.map Prod.snd) = c0 :: rest ∧
      entries.length = c0.totalChunks ∧
      ([5, 7] : List Nat).length = c0.totalChunks ∧
      (∀ ch ∈ entries.map Prod.snd, c0.chunkIndex ≤ ch.chunkIndex) ∧
      ([5, 7] : List Nat) = (c0 :: rest).map StreamChunk.data :=
  getStreamData_complete_only
    ⟨[("s", [(1, ⟨"s", 1, 2, 7, 0⟩), (0, ⟨"s", 0, 2, 5, 0⟩)])]⟩ "s" [5, 7]
    (by decide)

/-! ## Theorems: supervisor hook -/

theorem resetIdleTimer_spec {D : Type} (cfg : SupConfig) (s : SupState D) :
    resetIdleTimer cfg s
      = { s with idleDeadline :=
          if ¬cfg.keepAlive ∧ 0 < cfg.idleTimeout
          then some (s.now + cfg.idleTimeout) else s.idleDeadline } := by
  rw [resetIdleTimer]
  split_ifs with h
  · rfl
  · rfl

theorem postMessage_inactive_spec {D : Type} (cfg : SupConfig)
    (s : SupState D) (m : Inbound D) (h : s.workerActive = false) :
    postMessage cfg s m = { s with warnLogs := s.warnLogs + 1 } := by
  rw [postMessage, if_pos (by simp [h])]

theorem postMessage_active_spec {D : Type} (cfg : SupConfig) (s : SupState D)
    (m : Inbound D) (h : s.workerActive = true) :
    postMessage cfg s m
      = resetIdleTimer cfg { s with
          pendingMessages := mapSet s.pendingMessages s.messageIdCounter s.now
          messageIdCounter := s.messageIdCounter + 1
          metrics := { s.metrics with
            messagesSent := s.metrics.messagesSent + 1
            lastActivity := s.now }
          outbox := s.outbox ++ [m] } := by
  rw [postMessage, if_neg (by simp [h])]

theorem trackResponse_fields {D : Type} (s : SupState D) (dm : Option Nat) :
    (trackResponse s dm).status = s.status ∧
    (trackResponse s dm).readySeen = s.readySeen ∧
    (trackResponse s dm).workerActive = s.workerActive ∧
    (trackResponse s dm).now = s.now ∧
    (trackResponse s dm).idleDeadline = s.idleDeadline ∧
    (trackResponse s dm).initDeadline = s.initDeadline ∧
    (trackResponse s dm).idleTerminations = s.idleTerminations ∧
    (trackResponse s dm).outbox = s.outbox ∧
    (trackResponse s dm).metrics.messagesSent = s.metrics.messagesSent ∧
    (trackResponse s dm).metrics.messagesReceived
      = s.metrics.messagesReceived := by
  simp only [trackResponse]
  cases hm : mapGet s.pendingMessages (s.messageIdCounter - 1) with
  | none => cases dm <;> simp
  | some t =>
      by_cases ht : t = 0
      · cases dm <;> simp [ht]
      · cases dm <;> simp [ht]

theorem dispatchMessage_ready_inv {D : Type} (s : SupState D)
    (m : Outbound D) (h : s.status = WorkerStatus.running → s.readySeen = true) :
    (dispatchMessage s m).status = WorkerStatus.running →
      (dispatchMessage s m).readySeen = true := by
  cases m with
  | READY => intro _; rfl
  | ERROR reason => intro habs; simp [dispatchMessage, terminate] at habs
  | WARNING reason => intro habs; simp [dispatchMessage] at habs
  | TERMINATED => intro habs; simp [dispatchMessage] at habs
  | HEALTH st mem =>
      rw [dispatchMessage]
      split_ifs with hst
      · intro habs; simp at habs
      · exact h
  | PONG => exact h
  | PROGRESS p msg => exact h
  | LOG lv msg dm => exact h
  | ECHOED p dm => exact h
  | ACTED r dm => exact h
  | STREAM_CHUNK sid i tot dm => exact h
  | STREAM_COMPLETE sid => exact h
  | STREAM_ERROR sid e => exact h

theorem start_status {D : Type} (cfg : SupConfig) (s : SupState D) (ok : Bool) :
    (start cfg s ok).status
      = if ok then WorkerStatus.starting else WorkerStatus.error := by
  rw [start]
  cases ok <;> simp [resetIdleTimer_spec] <;> split_ifs <;> rfl

theorem start_readySeen {D : Type} (cfg : SupConfig) (s : SupState D)
    (ok : Bool) : (start cfg s ok).readySeen = false := by
  rw [start]
  cases ok <;> simp [resetIdleTimer_spec] <;> split_ifs <;> rfl

theorem fireIdle_ready_inv {D : Type} (s : SupState D)
    (h : s.status = WorkerStatus.running → s.readySeen = true) :
    (fireIdle s).status = WorkerStatus.running →
      (fireIdle s).readySeen = true := by
  rw [fireIdle]
  split_ifs with hact
  · intro habs; simp [terminate] at habs
  · exact h

theorem fireInit_ready_inv {D : Type} (s : SupState D)
    (h : s.status = WorkerStatus.running → s.readySeen = true) :
    (fireInit s).status = WorkerStatus.running →
      (fireInit s).readySeen = true := by
  intro habs
  simp [fireInit, terminate] at habs

theorem fireDueOnce_ready_inv {D : Type} (s : SupState D) (target : Nat)
    (h : s.status = WorkerStatus.running → s.readySeen = true) :
    (fireDueOnce s target).status = WorkerStatus.running →
      (fireDueOnce s target).readySeen = true := by
  rw [fireDueOnce]
  split
  all_goals first
    | exact h
    | (split_ifs <;> first
        | exact fireIdle_ready_inv _ h
        | exact fireInit_ready_inv _ h
        | exact h)

theorem stepEvent_ready_inv {D : Type} (cfg : SupConfig) (s : SupState D)
    (e : SupEvent D)
    (h : s.status = WorkerStatus.running → s.readySeen = true) :
    (stepEvent cfg s e).status = WorkerStatus.running →
      (stepEvent cfg s e).readySeen = true := by
  cases e with
  | start ok =>
      intro habs
      rw [stepEvent, start_status] at habs
      cases ok <;> simp at habs
  | terminateCall => intro habs; simp [stepEvent, terminate] at habs
  | restartCall ok =>
      intro habs
      rw [stepEvent, restart, start_status] at habs
      cases ok <;> simp at habs
  | post m =>
      by_cases hact : s.workerActive = true
      · rw [stepEvent, postMessage_active_spec cfg s m hact,
          resetIdleTimer_spec]
        exact h
      · rw [stepEvent, postMessage_inactive_spec cfg s m
          (by simpa using hact)]
        exact h
  | recv m =>
      rw [stepEvent, handleMessage]
      by_cases hact : s.workerActive = true
      · rw [if_neg (by simp [hact])]
        dsimp only
        apply dispatchMessage_ready_inv
        rw [resetIdleTimer_spec]
        by_cases hres : isResultType m = true
        · rw [if_pos hres]
          obtain ⟨h1, h2, -⟩ := trackResponse_fields
            { s with metrics := { s.metrics with
              messagesReceived := s.metrics.messagesReceived + 1
              lastActivity := s.now } } (durationOf m)
          intro hst
          dsimp only at hst ⊢
          rw [h1] at hst
          exact h2.trans (h hst)
        · rw [if_neg hres]
          exact h
      · rw [if_pos (by simpa using hact)]
        exact h
  | elapse d =>
      rw [stepEvent, elapse]
      intro hst
      exact fireDueOnce_ready_inv _ _
        (fireDueOnce_ready_inv _ _ h) hst

/-- C1: along every sequence of `start`/`terminate`/`restart` calls,
received worker messages and timer firings, the supervisor reports
`running` only when a `READY` outbound has been observed since the most
recent `start()` (the ghost `readySeen`, cleared by `start` and set only at
`READY` dispatch); and immediately after any `terminate()` call returns the
status is `idle`. -/
theorem supervisor_state_machine {D : Type} (cfg : SupConfig) (t0 : Nat)
    (es : List (SupEvent D)) :
    ((runEvents cfg (initState D t0) es).status = WorkerStatus.running →
      (runEvents cfg (initState D t0) es).readySeen = true) ∧
    (∀ s : SupState D,
      (stepEvent cfg s SupEvent.terminateCall).status = WorkerStatus.idle) := by
  constructor
  · have H : ∀ (l : List (SupEvent D)) (s : SupState D),
        (s.status = WorkerStatus.running → s.readySeen = true) →
        (runEvents cfg s l).status = WorkerStatus.running →
          (runEvents cfg s l).readySeen = true := by
      intro l
      induction l with
      | nil => intro s hs; exact hs
      | cons e es ih => intro s hs; exact ih _ (stepEvent_ready_inv cfg s e hs)
    exact H es (initState D t0) (by intro habs; simp [initState] at habs)
  · intro s; rfl

/-- Witness for C1: a started worker that has sent `READY` reports
`running` with the ghost flag set; and a concrete `terminate()`. -/
theorem supervisor_state_machine_witness :
    (runEvents ⟨true, 60000, none⟩ (initState Nat 0)
      [SupEvent.start true, SupEvent.recv Outbound.READY]).readySeen
        = true ∧
    (stepEvent ⟨true, 60000, none⟩ sampleActive
        SupEvent.terminateCall).status = WorkerStatus.idle :=
  ⟨(supervisor_state_machine ⟨true, 60000, none⟩ 0
      [SupEvent.start true, SupEvent.recv Outbound.READY]).1 (by decide),
    (supervisor_state_machine ⟨true, 60000, none⟩ 0 []).2 sampleActive⟩

theorem fireDueOnce_none {D : Type} (x : SupState D) (target : Nat)
    (h1 : x.idleDeadline = none) (h2 : x.initDeadline = none) :
    fireDueOnce x target = x := by
  simp only [fireDueOnce, h1, h2]

/-- A quiet period reaching the armed idle deadline fires the idle timer:
the worker is terminated by it exactly once. -/
theorem elapse_quiet_fires {D : Type} (s : SupState D) (d dl : Nat)
    (hact : s.workerActive = true) (hdl : s.idleDeadline = some dl)
    (hinit : s.initDeadline = none) (hdue : dl ≤ s.now + d) :
    elapse s d
      = { s with
          status := WorkerStatus.idle
          workerActive := false
          idleDeadline := none
          initDeadline := none
          startTime := 0
          now := s.now + d
          idleTerminations := s.idleTerminations + 1 } := by
  have h1 : fireDueOnce s (s.now + d) = fireIdle { s with now := dl } := by
    simp only [fireDueOnce, hdl, hinit]
    rw [if_pos hdue]
  have h2 : fireIdle { s with now := dl }
      = { s with
          status := WorkerStatus.idle
          workerActive := false
          idleDeadline := none
          initDeadline := none
          startTime := 0
          now := dl
          idleTerminations := s.idleTerminations + 1 } := by
    simp only [fireIdle]
    rw [if_pos hact]
    rfl
  simp only [elapse]
  rw [h1, h2, fireDueOnce_none _ _ rfl rfl]

/-- A quiet period shorter than the armed idle deadline only advances the
clock. -/
theorem elapse_quiet_retains {D : Type} (s : SupState D) (d dl : Nat)
    (hdl : s.idleDeadline = some dl) (hinit : s.initDeadline = none)
    (hdue : s.now + d < dl) :
    elapse s d = { s with now := s.now + d } := by
  have h1 : fireDueOnce s (s.now + d) = s := by
    simp only [fireDueOnce, hdl, hinit]
    rw [if_neg (by omega)]
  simp only [elapse]
  rw [h1, h1]

theorem elapse_no_timers {D : Type} (s : SupState D) (d : Nat)
    (h1 : s.idleDeadline = none) (h2 : s.initDeadline = none) :
    elapse s d = { s with now := s.now + d } := by
  simp only [elapse]
  rw [fireDueOnce_none s _ h1 h2, fireDueOnce_none s _ h1 h2]

/-- The dispatch switch either leaves the idle timer and the worker handle
alone, or (on `ERROR`) tears the worker down. -/
theorem dispatchMessage_timer_fields {D : Type} (s : SupState D)
    (m : Outbound D) :
    ((dispatchMessage s m).idleDeadline = s.idleDeadline ∧
      (dispatchMessage s m).workerActive = s.workerActive ∧
      (dispatchMessage s m).now = s.now ∧
      (dispatchMessage s m).initDeadline = s.initDeadline ∧
      (dispatchMessage s m).idleTerminations = s.idleTerminations) ∨
    (dispatchMessage s m).workerActive = false := by
  cases m with
  | ERROR reason => right; rfl
  | HEALTH st mem =>
      left
      rw [dispatchMessage]
      split_ifs with hst
      · exact ⟨rfl, rfl, rfl, rfl, rfl⟩
      · exact ⟨rfl, rfl, rfl, rfl, rfl⟩
  | READY => left; exact ⟨rfl, rfl, rfl, rfl, rfl⟩
  | WARNING reason => left; exact ⟨rfl, rfl, rfl, rfl, rfl⟩
  | ECHOED p dm => left; exact ⟨rfl, rfl, rfl, rfl, rfl⟩
  | ACTED r dm => left; exact ⟨rfl, rfl, rfl, rfl, rfl⟩
  | PONG => left; exact ⟨rfl, rfl, rfl, rfl, rfl⟩
  | TERMINATED => left; exact ⟨rfl, rfl, rfl, rfl, rfl⟩
  | PROGRESS p msg => left; exact ⟨rfl, rfl, rfl, rfl, rfl⟩
  | LOG lv msg dm => left; exact ⟨rfl, rfl, rfl, rfl, rfl⟩
  | STREAM_CHUNK sid i tot dm => left; exact ⟨rfl, rfl, rfl, rfl, rfl⟩
  | STREAM_COMPLETE sid => left; exact ⟨rfl, rfl, rfl, rfl, rfl⟩
  | STREAM_ERROR sid e => left; exact ⟨rfl, rfl, rfl, rfl, rfl⟩

/-- The active branch of the message handler, with the `let` chain spelled
out. -/
theorem handleMessage_else {D : Type} (cfg : SupConfig) (s : SupState D)
    (m : Outbound D) (hact : s.workerActive = true) :
    handleMessage cfg s m
      = dispatchMessage
          (resetIdleTimer cfg
            { (if isResultType m then
                trackResponse { s with metrics := { s.metrics with
                  messagesReceived := s.metrics.messagesReceived + 1
                  lastActivity := s.now } } (durationOf m)
              else
                { s with metrics := { s.metrics with
                  messagesReceived := s.metrics.messagesReceived + 1
                  lastActivity := s.now } }) with initDeadline := none })
          m := by
  rw [handleMessage, if_neg (by simp [hact])]

/-- Every received message is preceded by an idle-timer reset; the armed
deadline survives dispatch unless the message itself (`ERROR`) tears the
worker down. -/
theorem handleMessage_resets_idle {D : Type} (cfg : SupConfig)
    (s : SupState D) (m : Outbound D) (hact : s.workerActive = true)
    (hka : cfg.keepAlive = false) (hpos : 0 < cfg.idleTimeout) :
    (handleMessage cfg s m).idleDeadline = some (s.now + cfg.idleTimeout) ∨
      (handleMessage cfg s m).workerActive = false := by
  rw [handleMessage_else cfg s m hact]
  rcases dispatchMessage_timer_fields
      (resetIdleTimer cfg
        { (if isResultType m then
            trackResponse { s with metrics := { s.metrics with
              messagesReceived := s.metrics.messagesReceived + 1
              lastActivity := s.now } } (durationOf m)
          else
            { s with metrics := { s.metrics with
              messagesReceived := s.metrics.messagesReceived + 1
              lastActivity := s.now } }) with initDeadline := none }) m
    with ⟨hdl, -⟩ | hw
  · left
    rw [hdl, resetIdleTimer_spec]
    have hcond : ¬cfg.keepAlive = true ∧ 0 < cfg.idleTimeout :=
      ⟨by simp [hka], hpos⟩
    have hXnow : ({ (if isResultType m then
        trackResponse { s with metrics := { s.metrics with
          messagesReceived := s.metrics.messagesReceived + 1
          lastActivity := s.now } } (durationOf m)
      else
        { s with metrics := { s.metrics with
          messagesReceived := s.metrics.messagesReceived + 1
          lastActivity := s.now } }) with initDeadline := none } :
        SupState D).now = s.now := by
      dsimp only
      by_cases hres : isResultType m = true
      · rw [if_pos hres]
        exact ((trackResponse_fields _ _).2.2.2.1)
      · rw [if_neg hres]
    dsimp only
    rw [if_pos hcond, hXnow]
  · right
    exact hw

/-- `start` with a worker that constructs successfully: the idle timer is
armed a full `idleTimeout` from now, and no init timer is armed when
`timeout` is not configured. -/
theorem start_true_fields {D : Type} (cfg : SupConfig) (s : SupState D)
    (hka : cfg.keepAlive = false) (hpos : 0 < cfg.idleTimeout)
    (hto : cfg.timeout = none) (hsact : s.workerActive = false) :
    (start cfg s true).workerActive = true ∧
    (start cfg s true).now = s.now ∧
    (start cfg s true).idleDeadline = some (s.now + cfg.idleTimeout) ∧
    (start cfg s true).initDeadline = s.initDeadline ∧
    (start cfg s true).idleTerminations = s.idleTerminations := by
  have hcond : ¬cfg.keepAlive = true ∧ 0 < cfg.idleTimeout :=
    ⟨by simp [hka], hpos⟩
  rw [start]
  dsimp only
  rw [hsact]
  simp only [Bool.false_eq_true, if_false, if_true, hto]
  rw [if_neg (by simp), resetIdleTimer_spec]
  dsimp only
  rw [if_pos hcond]
  exact ⟨rfl, rfl, rfl, rfl, rfl⟩

/-- `postMessage` to an active worker: the idle timer is re-armed a full
`idleTimeout` from now and the lifecycle fields are untouched. -/
theorem postMessage_timer_fields {D : Type} (cfg : SupConfig)
    (s : SupState D) (m : Inbound D) (hact : s.workerActive = true)
    (hka : cfg.keepAlive = false) (hpos : 0 < cfg.idleTimeout) :
    (postMessage cfg s m).workerActive = true ∧
    (postMessage cfg s m).now = s.now ∧
    (postMessage cfg s m).idleDeadline = some (s.now + cfg.idleTimeout) ∧
    (postMessage cfg s m).initDeadline = s.initDeadline ∧
    (postMessage cfg s m).idleTerminations = s.idleTerminations := by
  have hcond : ¬cfg.keepAlive = true ∧ 0 < cfg.idleTimeout :=
    ⟨by simp [hka], hpos⟩
  rw [postMessage_active_spec cfg s m hact, resetIdleTimer_spec]
  dsimp only
  rw [if_pos hcond]
  exact ⟨hact, rfl, rfl, rfl, rfl⟩

/-- C2 (amended): with `keepAlive = false` and `idleTimeout = T ≥ 1`, a
worker left without `postMessage` and without inbound messages for at
least the armed countdown is terminated by the idle timer exactly once
(and never again afterwards); any activity before the deadline leaves the
worker alive; every `postMessage` and every received message restarts the
full `T`-ms countdown (unless the message itself tears the worker down,
as `ERROR` does); consequently, for `T ≥ 3`, activity at `T − 1` prevents
idle termination at `T + 1`. -/
theorem idle_reclamation {D : Type} (cfg : SupConfig) (T : Nat)
    (hka : cfg.keepAlive = false) (hTcfg : cfg.idleTimeout = T)
    (hT : 1 ≤ T) (hto : cfg.timeout = none) (s : SupState D) (dl : Nat)
    (m : Inbound D) (hact : s.workerActive = true)
    (hdl : s.idleDeadline = some dl) (hinit : s.initDeadline = none) :
    (∀ d : Nat, dl ≤ s.now + d →
      (elapse s d).workerActive = false ∧
      (elapse s d).status = WorkerStatus.idle ∧
      (elapse s d).idleTerminations = s.idleTerminations + 1 ∧
      ∀ d' : Nat,
        (elapse (elapse s d) d').idleTerminations
            = s.idleTerminations + 1 ∧
        (elapse (elapse s d) d').workerActive = false) ∧
    (∀ d : Nat, s.now + d < dl →
      (elapse s d).workerActive = true ∧
      (elapse s d).idleDeadline = some dl ∧
      (elapse s d).idleTerminations = s.idleTerminations) ∧
    ((postMessage cfg s m).idleDeadline = some (s.now + T)) ∧
    (∀ m' : Outbound D,
      (handleMessage cfg s m').idleDeadline = some (s.now + T) ∨
      (handleMessage cfg s m').workerActive = false) ∧
    (3 ≤ T → ∀ m'' : Inbound D,
      (runEvents cfg (initState D 0)
        [SupEvent.start true, SupEvent.elapse (T - 1), SupEvent.post m'',
          SupEvent.elapse 2]).workerActive = true ∧
      (runEvents cfg (initState D 0)
        [SupEvent.start true, SupEvent.elapse (T - 1), SupEvent.post m'',
          SupEvent.elapse 2]).idleTerminations = 0) := by
  have hpos : 0 < cfg.idleTimeout := by omega
  refine ⟨?_, ?_, ?_, ?_, ?_⟩
  · intro d hdue
    have hfire := elapse_quiet_fires s d dl hact hdl hinit hdue
    rw [hfire]
    refine ⟨rfl, rfl, rfl, ?_⟩
    intro d'
    rw [elapse_no_timers _ d' rfl rfl]
    exact ⟨rfl, rfl⟩
  · intro d hdue
    rw [elapse_quiet_retains s d dl hdl hinit hdue]
    exact ⟨hact, hdl, rfl⟩
  · have h := (postMessage_timer_fields cfg s m hact hka hpos).2.2.1
    rw [hTcfg] at h
    exact h
  · intro m'
    have h := handleMessage_resets_idle cfg s m' hact hka hpos
    rw [hTcfg] at h
    exact h
  · intro hT3 m''
    have hrun : runEvents cfg (initState D 0)
        [SupEvent.start true, SupEvent.elapse (T - 1), SupEvent.post m'',
          SupEvent.elapse 2]
        = elapse (postMessage cfg
            (elapse (start cfg (initState D 0) true) (T - 1)) m'') 2 := rfl
    obtain ⟨w1, n1, dl1, i1, t1⟩ :=
      start_true_fields cfg (initState D 0) hka hpos hto rfl
    have hi1 : (start cfg (initState D 0) true).initDeadline = none := by
      rw [i1]; rfl
    have hn1 : (start cfg (initState D 0) true).now = 0 := by rw [n1]; rfl
    have e2 := elapse_quiet_retains (start cfg (initState D 0) true) (T - 1)
      ((initState D 0).now + cfg.idleTimeout) dl1 hi1
      (by rw [hn1]; show 0 + (T - 1) < (initState D 0).now + cfg.idleTimeout
          rw [hTcfg]; show 0 + (T - 1) < 0 + T; omega)
    rw [hrun, e2]
    obtain ⟨w3, n3, dl3, i3, t3⟩ := postMessage_timer_fields cfg
      { start cfg (initState D 0) true with
        now := (start cfg (initState D 0) true).now + (T - 1) } m''
      (by exact w1) hka hpos
    have e4 := elapse_quiet_retains
      (postMessage cfg
        { start cfg (initState D 0) true with
          now := (start cfg (initState D 0) true).now + (T - 1) } m'') 2
      ((start cfg (initState D 0) true).now + (T - 1) + cfg.idleTimeout)
      (by rw [dl3]) (by rw [i3]; exact hi1)
      (by rw [n3]
          show (start cfg (initState D 0) true).now + (T - 1) + 2
              < (start cfg (initState D 0) true).now + (T - 1)
                  + cfg.idleTimeout
          rw [hTcfg]; omega)
    rw [e4]
    refine ⟨by rw [w3], ?_⟩
    rw [t3]
    show (start cfg (initState D 0) true).idleTerminations = 0
    rw [t1]
    rfl

/-- C2 counterexample for the claim as stated (every `T > 0`): with
`T = 2`, activity at `T − 1 = 1` re-arms the countdown for time `3 = T + 1`,
so the worker is nevertheless idle-terminated at `T + 1`. -/
theorem idle_reclamation_counterexample :
    (runEvents ⟨false, 2, none⟩ (initState Nat 0)
      [SupEvent.start true, SupEvent.elapse 1, SupEvent.post Inbound.PING,
        SupEvent.elapse 2]).workerActive = false ∧
    (runEvents ⟨false, 2, none⟩ (initState Nat 0)
      [SupEvent.start true, SupEvent.elapse 1, SupEvent.post Inbound.PING,
        SupEvent.elapse 2]).idleTerminations = 1 ∧
    (runEvents ⟨false, 2, none⟩ (initState Nat 0)
      [SupEvent.start true, SupEvent.elapse 1, SupEvent.post Inbound.PING,
        SupEvent.elapse 2]).now = 3 := by
  refine ⟨?_, ?_, ?_⟩ <;> decide

/-- Witness for C2 (amended) at concrete inputs: a worker idle since time
50 with deadline 150 is reclaimed by an elapse of 100; and the `T = 5`
scenario run. -/
theorem idle_reclamation_witness :
    (elapse sampleActive 100).workerActive = false ∧
    (elapse sampleActive 100).idleTerminations
      = sampleActive.idleTerminations + 1 ∧
    (runEvents ⟨false, 5, none⟩ (initState Nat 0)
      [SupEvent.start true, SupEvent.elapse 4, SupEvent.post Inbound.PING,
        SupEvent.elapse 2]).workerActive = true := by
  have h := idle_reclamation (D := Nat) ⟨false, 5, none⟩ 5 rfl rfl
    (by decide) rfl sampleActive 150 Inbound.PING rfl rfl rfl
  obtain ⟨ha, -, -, -, hs⟩ := h
  have h1 := ha 100 (by decide)
  have h2 := hs (by decide) Inbound.PING
  exact ⟨h1.1, h1.2.2.1, h2.1⟩

/-- C8: `postMessage` with no active worker logs a warning, sends nothing
and leaves the state (in particular every metric) unchanged; with an
active worker it increments `messagesSent` by exactly one, leaves
`messagesReceived` and `averageResponseTime` alone, stamps `lastActivity`
with the current time, forwards the message verbatim and re-arms the idle
timer. -/
theorem postMessage_semantics {D : Type} (cfg : SupConfig) (s : SupState D)
    (m : Inbound D) :
    (s.workerActive = false →
      postMessage cfg s m = { s with warnLogs := s.warnLogs + 1 }) ∧
    (s.workerActive = true →
      (postMessage cfg s m).metrics.messagesSent
          = s.metrics.messagesSent + 1 ∧
      (postMessage cfg s m).metrics.messagesReceived
          = s.metrics.messagesReceived ∧
      (postMessage cfg s m).metrics.lastActivity = s.now ∧
      (postMessage cfg s m).metrics.averageResponseTime
          = s.metrics.averageResponseTime ∧
      (postMessage cfg s m).outbox = s.outbox ++ [m] ∧
      (postMessage cfg s m).status = s.status ∧
      (postMessage cfg s m).idleDeadline
        = (if ¬cfg.keepAlive ∧ 0 < cfg.idleTimeout
            then some (s.now + cfg.idleTimeout) else s.idleDeadline)) := by
  constructor
  · exact postMessage_inactive_spec cfg s m
  · intro h
    rw [postMessage_active_spec cfg s m h, resetIdleTimer_spec]
    exact ⟨rfl, rfl, rfl, rfl, rfl, rfl, rfl⟩

/-- Witness for C8 at concrete inputs: an idle supervisor only logs a
warning, an active one counts and forwards the message. -/
theorem postMessage_semantics_witness :
    postMessage ⟨false, 100, none⟩ (initState Nat 0) Inbound.PING
        = { initState Nat 0 with warnLogs := 1 } ∧
      (postMessage ⟨false, 100, none⟩ sampleActive Inbound.PING).outbox
        = sampleActive.outbox ++ [Inbound.PING] := by
  constructor
  · exact (postMessage_semantics ⟨false, 100, none⟩ (initState Nat 0)
      Inbound.PING).1 (by decide)
  · exact ((postMessage_semantics ⟨false, 100, none⟩ sampleActive
      Inbound.PING).2 (by decide)).2.2.2.2.1

/-! ## Theorems: worker-side dispatcher -/

/-- C9: a message whose tag is none of the five reserved ones is routed
whole to `onCustom` when that handler is supplied; otherwise the resulting
fault goes to `onError` when supplied, else it is a fault local to the
worker (thrown inside the `try`, caught, and dropped); and for every
message the dispatcher returns normally, so the worker's message loop is
never crashed. -/
theorem onMainMessage_unknown_tag {D : Type} (h : Handlers)
    (msg : Inbound D) :
    (∀ payload : D, h.hasCustom = true →
      onMainMessage h (Inbound.custom payload)
        = Except.ok (DispatchOutcome.routedCustom (Inbound.custom payload))) ∧
    (∀ payload : D, h.hasCustom = false → h.hasError = true →
      ∃ e, onMainMessage h (Inbound.custom payload)
        = Except.ok (DispatchOutcome.handledError e)) ∧
    (∀ payload : D, h.hasCustom = false → h.hasError = false →
      ∃ e, onMainMessage h (Inbound.custom payload)
        = Except.ok (DispatchOutcome.swallowed e)) ∧
    (∃ o, onMainMessage h msg = Except.ok o) := by
  refine ⟨?_, ?_, ?_, ?_⟩
  · intro payload hc
    simp [onMainMessage, dispatchSwitch, hc]
  · intro payload hc he
    exact ⟨"Unknown message type in",
      by simp [onMainMessage, dispatchSwitch, hc, he]⟩
  · intro payload hc he
    exact ⟨"Unknown message type in",
      by simp [onMainMessage, dispatchSwitch, hc, he]⟩
  · rw [onMainMessage]
    cases hsw : dispatchSwitch h msg with
    | ok o => exact ⟨o, by simp [hsw]⟩
    | error e =>
        exact ⟨if h.hasError then DispatchOutcome.handledError e
          else DispatchOutcome.swallowed e, by simp [hsw]⟩

/-- Witness for C9 at concrete inputs: an unknown tag with no `onCustom`
and no `onError` is swallowed locally; a `PING` returns normally. -/
theorem onMainMessage_unknown_tag_witness :
    (∃ e, onMainMessage ⟨true, true, true, true, true, false, false⟩
        (Inbound.custom (7 : Nat))
      = Except.ok (DispatchOutcome.swallowed e)) ∧
    (∃ o, onMainMessage ⟨true, true, true, true, true, true, false⟩
        (Inbound.PING : Inbound Nat) = Except.ok o) :=
  ⟨(onMainMessage_unknown_tag ⟨true, true, true, true, true, false, false⟩
      (Inbound.custom (7 : Nat))).2.2.1 7 rfl rfl,
    (onMainMessage_unknown_tag ⟨true, true, true, true, true, true, false⟩
      (Inbound.PING : Inbound Nat)).2.2.2⟩

end ReactWorker
